import Mathlib

/-!
Verification of the cockpit task-runner core: a shallow embedding, in Lean, of
the task-graph resolver (`src/core/task/resolver.ts`, `topological.ts`,
`graph.ts`), the execution scheduler (`src/core/executor/scheduler.ts`,
`runner.ts`), and the content-addressed cache (`src/core/cache/store.ts`,
`hash.ts`), together with proofs of the specified properties.

Modelling conventions:
* Strings are Lean `String`s; where character-level reasoning is required
  (task-id parsing) they are modelled as `List Char`.
* JavaScript `Map`s are association lists (`List (key × value)`) whose keys
  are pairwise distinct (a `Map` invariant carried as a hypothesis), with the
  list order being the `Map`'s insertion/iteration order.  `Set`s whose
  iteration order matters are `List`s as well; sets used only for membership
  are `List`s queried with `∈`.
* Filesystem and crypto effects (fast-glob, `statSync`, SHA-256,
  `JSON.stringify` of opaque values) are external to the core; they are
  modelled as explicit parameters or as transcripts of the values fed to
  them, as documented at each definition.
-/

namespace Cockpit

/-- `DEFAULT_TIMEOUT` from `src/constants.ts` (5 minutes in ms). -/
def DEFAULT_TIMEOUT : Nat := 300000

/-! ## Task-id grammar (`src/core/task/resolver.ts`)

`createTaskId` and `parseTaskId` operate on strings; they are modelled over
`List Char` so that the "first colon" rule can be reasoned about directly.
-/

/-- `createTaskId(workspaceId, taskName)` from `resolver.ts:66`:
`` `${workspaceId}:${taskName}` ``. -/
def createTaskId (workspaceId taskName : List Char) : List Char :=
  workspaceId ++ [':'] ++ taskName

/-- `parseTaskId(taskId)` from `resolver.ts:77`: split at the first `':'`
(`taskId.indexOf(":")`); when there is no colon (`indexOf` is `-1`) the
workspace id is `""` and the whole string is the task name.  The prefix
before the first colon is exactly `takeWhile (· ≠ ':')`, whose length equals
`indexOf(":")` when a colon exists and the full length otherwise. -/
def parseTaskId (taskId : List Char) : List Char × List Char :=
  let pre := taskId.takeWhile (fun c => c != ':')
  if pre.length = taskId.length then
    ([], taskId)
  else
    (pre, taskId.drop (pre.length + 1))

/-! ## Process result interpretation (`src/core/executor/runner.ts`) -/

/-- Task status as surfaced to the scheduler. -/
inductive TaskStatus where
  | success
  | failed
  | skipped
  | cached
deriving DecidableEq, Repr

/-- The typed errors a task result can carry
(`TaskTimeoutError(taskId, timeoutMs)`, `TaskExecutionError(taskId,
exitCode, stderr)` from `src/utils/errors.ts`). -/
inductive TaskError where
  | taskTimeout (taskId : String) (timeoutMs : Nat)
  | taskExecution (taskId : String) (exitCode : Option Int) (stderr : String)
deriving DecidableEq, Repr

/-- `ProcessResult` from `process.ts`: `exitCode` is `number | null`. -/
structure ProcessResult where
  exitCode : Option Int
  stdout : String
  stderr : String
  killed : Bool
deriving DecidableEq, Repr

/-- `TaskResult` from `runner.ts`. -/
structure TaskResult where
  taskId : String
  status : TaskStatus
  duration : Nat
  output : Option String := none
  error : Option TaskError := none
deriving DecidableEq, Repr

/-- The command union (`string | string[] | {command, args?, cwd?, shell?}`)
from `src/types`. Only its identity matters for the properties proved here. -/
inductive CommandSpec where
  | shellStr (s : String)
  | shellList (l : List String)
  | record (command : String) (args : List String) (cwd : Option String)
      (shell : Option Bool)
deriving DecidableEq, Repr

/-- `TaskDefinition` fields consumed by the runner and the cache.
Optional fields are `Option`s; a JavaScript truthiness test on a boolean
option is `(· = some true)`. -/
structure TaskDefinition where
  command : CommandSpec
  env : Option (List (String × String)) := none
  inputs : Option (List String) := none
  outputs : Option (List String) := none
  cache : Option Bool := none
  allowFailure : Option Bool := none
  timeout : Option Nat := none
deriving DecidableEq, Repr

/-- `ResolvedTask` from `src/types`. -/
structure ResolvedTask where
  id : String
  workspaceId : String
  name : String
  definition : TaskDefinition
  dependencies : List String
deriving DecidableEq, Repr

/-- `handleProcessResult(task, result, startTime, logger)` from
`runner.ts:222`.  The wall-clock duration (`Date.now() - startTime`) is an
external input, passed as `duration`; logger emission is not modelled. -/
def handleProcessResult (task : ResolvedTask) (result : ProcessResult)
    (duration : Nat) : TaskResult :=
  if result.killed then
    { taskId := task.id
      status := .failed
      duration := duration
      output := some (result.stdout ++ result.stderr)
      error := some (.taskTimeout task.id
        (task.definition.timeout.getD DEFAULT_TIMEOUT)) }
  else if result.exitCode ≠ some 0 then
    if task.definition.allowFailure = some true then
      { taskId := task.id
        status := .success
        duration := duration
        output := some (result.stdout ++ result.stderr) }
    else
      { taskId := task.id
        status := .failed
        duration := duration
        output := some (result.stdout ++ result.stderr)
        error := some (.taskExecution task.id result.exitCode result.stderr) }
  else
    { taskId := task.id
      status := .success
      duration := duration
      output := some (result.stdout ++ result.stderr) }

/-! ## Cache store (`src/core/task/graph.ts`, class `CacheStore`)

The store's on-disk state is modelled field-by-field:
* `registries t h` is the entry for hash `h` in `results/<t>/registry.json`
  (the whole registry file of task `t` is the curried map `registries t`);
* `chunkFiles t h` is the parsed content of `results/<t>/<h>/output.json`
  (`none` = the file does not exist; `JSON.parse ∘ JSON.stringify` on a
  chunk list is the identity);
* `active t` is the manifest's active hash for task `t`.
File copying into and out of `results/<t>/<h>/outputs/` and glob expansion
are external filesystem effects; the list of files `saveOutputFiles`
actually cached is passed to `set` as the `matchedFiles` parameter, and
existence checks under the workspace are an oracle parameter.
-/

/-- Stream tag of a captured output chunk (`"stdout" | "stderr"`). -/
inductive StreamTag where
  | stdout
  | stderr
deriving DecidableEq, Repr

/-- `OutputChunk` from `graph.ts`. -/
structure OutputChunk where
  stream : StreamTag
  data : String
deriving DecidableEq, Repr

/-- `CachedFile` from `graph.ts`. -/
structure CachedFile where
  relativePath : String
  size : Nat
deriving DecidableEq, Repr

/-- `RegistryEntry` from `graph.ts`. -/
structure RegistryEntry where
  inputHash : String
  timestamp : Nat
  outputs : List String
  cachedFiles : List CachedFile
deriving DecidableEq, Repr

/-- The cache store's persistent state (see section comment). -/
structure CacheState where
  registries : String → String → Option RegistryEntry
  chunkFiles : String → String → Option (List OutputChunk)
  active : String → Option String

/-- The empty cache (fresh `.cockpit/.cache` directory). -/
def emptyCache : CacheState :=
  { registries := fun _ _ => none
    chunkFiles := fun _ _ => none
    active := fun _ => none }

/-- `CacheStoreOptions` from `graph.ts` (`workspacePath` is consumed only by
the external file copying and is not part of the model). -/
structure CacheSetOptions where
  taskId : String
  inputHash : String
  outputs : List String
  outputChunks : Option (List OutputChunk) := none
deriving Repr

/-- Pointwise update of a two-level map at one `(taskId, hash)` cell. -/
def updateCell {α : Type} (f : String → String → Option α) (t h : String)
    (v : Option α) : String → String → Option α :=
  fun t' h' => if t' = t ∧ h' = h then v else f t' h'

/-- `CacheStore.set(options)` from `graph.ts:438`:
removes any existing hash directory (so a stale `output.json` is gone),
writes `output.json` only when `outputChunks` is present *and non-empty*,
upserts the registry entry (timestamp is the external clock, the cached
file list is what the external `saveOutputFiles` copied), and points the
manifest's active hash at this hash. -/
def CacheState.set (st : CacheState) (opts : CacheSetOptions)
    (matchedFiles : List CachedFile) (timestamp : Nat) : CacheState :=
  { registries := updateCell st.registries opts.taskId opts.inputHash
      (some { inputHash := opts.inputHash
              timestamp := timestamp
              outputs := opts.outputs
              cachedFiles := matchedFiles })
    chunkFiles := updateCell st.chunkFiles opts.taskId opts.inputHash
      (match opts.outputChunks with
       | some chunks => if chunks.isEmpty then none else some chunks
       | none => none)
    active := fun t' =>
      if t' = opts.taskId then some opts.inputHash else st.active t' }

/-- `CacheStore.getOutputChunks(taskId, inputHash)` from `graph.ts:655`:
reads `results/<taskId>/<inputHash>/output.json`; `undefined` when the file
does not exist. -/
def CacheState.getOutputChunks (st : CacheState) (taskId inputHash : String) :
    Option (List OutputChunk) :=
  st.chunkFiles taskId inputHash

/-- The `else` branch of `CacheStore.invalidate` from `graph.ts:529`:
remove the whole task directory (registry file and every hash subtree) and
the manifest entry. -/
def CacheState.invalidateAll (st : CacheState) (taskId : String) :
    CacheState :=
  { registries := fun t' => if t' = taskId then fun _ => none
      else st.registries t'
    chunkFiles := fun t' => if t' = taskId then fun _ => none
      else st.chunkFiles t'
    active := fun t' => if t' = taskId then none else st.active t' }

/-- `CacheStore.invalidate(taskId, inputHash?)` from `graph.ts:529`.
The source guards with JavaScript truthiness — `if (inputHash)` — so the
"specific hash" branch runs only when the hash is present *and non-empty*;
`invalidate(t, "")` falls into the remove-everything branch. -/
def CacheState.invalidate (st : CacheState) (taskId : String)
    (inputHash : Option String) : CacheState :=
  match inputHash with
  | some hash =>
      if hash = "" then st.invalidateAll taskId
      else
        { registries := updateCell st.registries taskId hash none
          chunkFiles := updateCell st.chunkFiles taskId hash none
          active := fun t' =>
            if t' = taskId then
              (if st.active taskId = some hash then none
               else st.active taskId)
            else st.active t' }
  | none => st.invalidateAll taskId

/-- `CacheStore.hasOutputsOnDisk(taskId, inputHash, workspacePath)` from
`graph.ts:567`: vacuously `true` when the registry has no entry for the
hash or the entry records no cached files; otherwise every recorded
relative path must exist in the workspace (`existsAt` is the external
`existsSync (join workspacePath ·)` oracle). -/
def CacheState.hasOutputsOnDisk (st : CacheState) (taskId inputHash : String)
    (existsAt : String → Bool) : Bool :=
  match st.registries taskId inputHash with
  | none => true
  | some entry =>
      if entry.cachedFiles.isEmpty then true
      else entry.cachedFiles.all (fun f => existsAt f.relativePath)

/-! ## Input fingerprinter (`hashTaskInputs` / `hashFiles` in `graph.ts`)

SHA-256 and `JSON.stringify` are external, deterministic functions; the
accumulator is therefore modelled as the *transcript* of values fed to
`hash.update(...)`, in order.  Two runs produce the same 16-hex-character
digest whenever their transcripts are equal.  Glob expansion (`fast-glob`)
and `statSync` are filesystem effects, passed in as the `expand` and `stat`
parameters (`stat p = none` models a throwing `statSync`, whose file is
skipped).
-/

/-- One `hash.update(...)` call of `hashTaskInputs`. -/
inductive HashTok where
  | cmd (c : CommandSpec)
  | extra (args : List String)
  | envObj (e : List (String × String))
  | filesDigest (transcript : List String)
deriving DecidableEq, Repr

/-- `hashFiles(patterns, baseDir)` from `graph.ts:773`, given the expanded
file list: sort the paths (`files.sort()`, lexicographic), then for each
path feed the relative path, the mtime ISO string and the decimal byte
size; files whose `statSync` throws are skipped.  The returned value is the
transcript of the inner SHA-256 accumulator. -/
def hashFiles (paths : List String) (stat : String → Option (String × Nat)) :
    List String :=
  (paths.mergeSort (fun a b => decide (a ≤ b))).flatMap fun p =>
    match stat p with
    | some (mtime, size) => [p, mtime, toString size]
    | none => []

/-- The glob patterns `hashTaskInputs` expands: `definition.inputs` when
present and non-empty, else the catch-all `["**/*"]`. -/
def inputPatterns (d : TaskDefinition) : List String :=
  match d.inputs with
  | some pats => if pats.length > 0 then pats else ["**/*"]
  | none => ["**/*"]

/-- `hashTaskInputs(task, workspacePath, extraArgs?)` from `graph.ts:728` as
an update transcript: the serialized command; the serialized `extraArgs`
when present and non-empty; the serialized `env` when present; then the
digest of the expanded input files.  (The final `digest("hex").slice(0,16)`
is the external SHA-256; equal transcripts give equal 16-hex hashes.) -/
def hashTaskInputs (task : ResolvedTask)
    (expand : List String → List String)
    (stat : String → Option (String × Nat))
    (extraArgs : Option (List String)) : List HashTok :=
  [.cmd task.definition.command] ++
    (match extraArgs with
     | some args => if args.length > 0 then [.extra args] else []
     | none => []) ++
    (match task.definition.env with
     | some e => [.envObj e]
     | none => []) ++
    [.filesDigest (hashFiles (expand (inputPatterns task.definition)) stat)]

/-! ## Dependency maps

A JavaScript `Map<string, string[]>` (node id → dependency ids) as an
association list in insertion order; the `Map` invariant — pairwise
distinct keys — is carried as a `Nodup` hypothesis by the theorems.
-/

/-- A dependency map: node id → list of dependency ids. -/
abbrev NodeMap := List (String × List String)

/-- The map's key list, in insertion (= iteration) order. -/
def keysOf (m : NodeMap) : List String := m.map Prod.fst

/-- `Map.get`: the value at the first matching key. -/
def lookupDeps : NodeMap → String → Option (List String)
  | [], _ => none
  | (k, v) :: rest, x => if k = x then some v else lookupDeps rest x

/-- `nodes.get(x) ?? []`. -/
def getDeps (m : NodeMap) (x : String) : List String :=
  (lookupDeps m x).getD []

/-! ## Scheduler (`src/core/executor/scheduler.ts`, `scheduleTasks`)

`runTask` is an external effect, passed as the oracle `run`; the runner
guarantees `(run t).taskId = t` (every return path of `runTask` sets
`taskId: task.id`), carried as a hypothesis.  `p-limit` with the
`concurrency` option bounds how many `run` calls overlap in time but has no
observable effect on the result list: `Promise.all` keeps the results of a
level in `runnableTasks` order, and the `completedTasks` / `failedTasks`
sets are fully updated before the next level begins, so the concurrency
parameter does not appear in the model.  `graph.tasks.get(taskId)!` is
`getDeps` (the non-null assertion is sound for graphs whose levels are
drawn from the task map). -/

/-- Mutable scheduler state: emitted results, completed and failed id sets
(queried only for membership). -/
structure SchedState where
  results : List TaskResult
  completed : List String
  failed : List String

/-- The `{taskId, status: "skipped", duration: 0}` result object. -/
def skipResult (taskId : String) : TaskResult :=
  { taskId := taskId, status := .skipped, duration := 0 }

/-- `task.dependencies.some((dep) => failedTasks.has(dep))`. -/
def hasFailedDep (tasks : NodeMap) (failed : List String) (t : String) :
    Bool :=
  (getDeps tasks t).any (fun d => decide (d ∈ failed))

/-- One iteration of the `for (const level of graph.parallelLevels)` loop of
`scheduleTasks` (`scheduler.ts:34`). -/
def processLevel (tasks : NodeMap) (run : String → TaskResult)
    (continueOnError : Bool) (st : SchedState) (level : List String) :
    SchedState :=
  if continueOnError = false ∧ st.failed ≠ [] then
    { st with results := st.results ++ level.map skipResult }
  else
    let skippedTasks := level.filter fun t =>
      hasFailedDep tasks st.failed t && !continueOnError
    let runnableTasks := level.filter fun t =>
      !(hasFailedDep tasks st.failed t && !continueOnError)
    { results := st.results ++ skippedTasks.map skipResult ++
        runnableTasks.map run
      completed := st.completed ++ runnableTasks.filter (fun t =>
        decide ((run t).status = .success) || decide ((run t).status = .cached))
      failed := st.failed ++ runnableTasks.filter (fun t =>
        decide ((run t).status = .failed)) }

/-- `scheduleTasks(graph, context, options)` from `scheduler.ts:23`. -/
def scheduleTasks (tasks : NodeMap) (levels : List (List String))
    (run : String → TaskResult) (continueOnError : Bool) :
    List TaskResult :=
  (levels.foldl (processLevel tasks run continueOnError)
    ⟨[], [], []⟩).results

/-- Restriction of the dependency relation to the graph: `a` directly
depends on `b`, both being nodes of the task map. -/
def DepOn (tasks : NodeMap) (a b : String) : Prop :=
  a ∈ keysOf tasks ∧ b ∈ keysOf tasks ∧ b ∈ getDeps tasks a

instance (tasks : NodeMap) (a b : String) : Decidable (DepOn tasks a b) := by
  unfold DepOn
  infer_instance

/-- The `TaskGraph` level invariant (spec §3): tasks in level `i` depend
only on tasks in levels `< i`; dependencies outside the node set are
ignored.  Index form, so it is decidable on concrete graphs. -/
def ValidLevels (tasks : NodeMap) (levels : List (List String)) : Prop :=
  ∀ i, i < levels.length → ∀ t ∈ levels.getD i [],
    ∀ d ∈ getDeps tasks t, d ∈ keysOf tasks → d ∈ (levels.take i).flatten

instance (tasks : NodeMap) (levels : List (List String)) :
    Decidable (ValidLevels tasks levels) := by
  unfold ValidLevels
  infer_instance

/-! ## Topological sort and cycle detection (`src/core/task/topological.ts`)

`topologicalSort` is Kahn's algorithm; `detectCycle` is the DFS witness
builder; `getParallelLevels` is the iterative fixed point.  The `while`
loops are modelled with explicit fuel (`m.length + 1`), proven sufficient:
Kahn enqueues each node at most once, the DFS recursion depth is bounded by
the number of unvisited keys, and each parallel level removes at least one
remaining node.  A thrown `CyclicDependencyError(cycle)` is `.error cycle`.
`nodes.size` is `m.length` (keys are distinct in a `Map`).
-/

/-- Dependencies of `x` that are keys of the map — the edges the sorter
keeps (`if (!nodes.has(dep)) continue`). -/
def inSetDeps (m : NodeMap) (x : String) : List String :=
  (getDeps m x).filter (fun d => decide (d ∈ keysOf m))

/-- The in-degree map after the two initialization loops of
`topologicalSort`: every key holds the number of its in-set dependency
occurrences; absent keys read back as the `inDegree.get(…) ?? 1` default
(never queried, since dependents are always keys). -/
def initDegree (m : NodeMap) (x : String) : Int :=
  if x ∈ keysOf m then ((inSetDeps m x).length : Int) else 1

/-- The reverse adjacency list `graph`: for a key `d`, each entry
`(n, deps)` of the map contributes one occurrence of `n` per occurrence of
`d` in `deps`; `graph.get(v) ?? []` is `[]` for non-keys. -/
def dependentsOf (m : NodeMap) (d : String) : List String :=
  if d ∈ keysOf m then
    m.flatMap (fun p => List.replicate (p.2.count d) p.1)
  else []

/-- The inner `for (const dependent of dependents)` loop of Kahn's pop:
decrement each dependent's degree, enqueueing those that reach exactly
zero. -/
def processDeps : List String → (String → Int) → List String →
    (String → Int) × List String
  | [], deg, queue => (deg, queue)
  | x :: rest, deg, queue =>
      let d := deg x - 1
      processDeps rest (fun y => if y = x then d else deg y)
        (if d = 0 then queue ++ [x] else queue)

/-- The `while (queue.length > 0)` loop of Kahn's algorithm; returns the
result list and the remaining queue (empty when the loop terminated
normally, which the fuel `m.length + 1` guarantees). -/
def kahnRun (m : NodeMap) : Nat → List String → (String → Int) →
    List String → List String × List String
  | 0, queue, _, res => (res, queue)
  | _ + 1, [], _, res => (res, [])
  | fuel + 1, v :: queue, deg, res =>
      let p := processDeps (dependentsOf m v) deg queue
      kahnRun m fuel p.2 p.1 (res ++ [v])

/-- Kahn's algorithm: seed the FIFO with the zero-in-degree keys in map
order, then drain. -/
def kahnResult (m : NodeMap) : List String × List String :=
  kahnRun m (m.length + 1)
    ((keysOf m).filter (fun n => decide (initDegree m n = 0)))
    (initDegree m) []

/-- Mutable DFS state of `detectCycle`: `visited` and `recursionStack` are
sets (membership only), `path` is the current path in push order. -/
structure DfsState where
  visited : List String
  recStack : List String
  path : List String
deriving Repr

/-- The `for (const dep of deps)` loop body of `detectCycle`'s `dfs`
(`topological.ts:94`): skip non-keys; recurse into unvisited deps (`visit`
is the recursive `dfs` at one less fuel); a visited dep on the recursion
stack is a back-edge, returning the slice of the path from the dep onward
followed by the dep itself; otherwise continue.  `none` = fuel exhausted
(proven unreachable). -/
def dfsDepsF (m : NodeMap)
    (visit : String → DfsState → Option (DfsState × Option (List String))) :
    List String → DfsState → Option (DfsState × Option (List String))
  | [], st => some (st, none)
  | d :: rest, st =>
      if d ∈ keysOf m then
        if d ∉ st.visited then
          match visit d st with
          | none => none
          | some (st', some c) => some (st', some c)
          | some (st', none) => dfsDepsF m visit rest st'
        else if d ∈ st.recStack then
          some (st, some (st.path.drop (st.path.indexOf d) ++ [d]))
        else dfsDepsF m visit rest st
      else dfsDepsF m visit rest st

/-- `dfs(nodeId)` of `detectCycle`: mark visited, push onto the recursion
stack and path, walk the dependencies, then pop and unmark.  Plain `Nat`
recursion on fuel so that the definition computes. -/
def dfsVisit (m : NodeMap) (fuel : Nat) :
    String → DfsState → Option (DfsState × Option (List String)) :=
  Nat.rec (motive := fun _ =>
      String → DfsState → Option (DfsState × Option (List String)))
    (fun _ _ => none)
    (fun _ visit n st =>
      match dfsDepsF m visit (getDeps m n)
          ⟨st.visited ++ [n], st.recStack ++ [n], st.path ++ [n]⟩ with
      | none => none
      | some (st2, some c) => some (st2, some c)
      | some (st2, none) =>
          some (⟨st2.visited, st2.recStack.erase n, st2.path.dropLast⟩,
            none))
    fuel

/-- The outer `for (const nodeId of nodes.keys())` loop of `detectCycle`. -/
def detectCycleLoop (m : NodeMap) : List String → DfsState →
    Option (List String)
  | [], _ => none
  | k :: rest, st =>
      if k ∉ st.visited then
        match dfsVisit m (m.length + 1) k st with
        | none => none
        | some (_, some c) => some c
        | some (st', none) => detectCycleLoop m rest st'
      else detectCycleLoop m rest st

/-- `detectCycle(nodes)` from `topological.ts:82`; the final
`Array.from(nodes.keys())` fallback ("shouldn't reach here") is proven
unreachable on cyclic inputs. -/
def detectCycle (m : NodeMap) : List String :=
  match detectCycleLoop m (keysOf m) ⟨[], [], []⟩ with
  | some c => c
  | none => keysOf m

/-- `topologicalSort(nodes)` from `topological.ts:11`: run Kahn; when the
result does not cover all nodes, throw `CyclicDependencyError` with the
DFS witness. -/
def topologicalSort (m : NodeMap) : Except (List String) (List String) :=
  if (kahnResult m).1.length = m.length then .ok (kahnResult m).1
  else .error (detectCycle m)

/-- The `while (remaining.size > 0)` loop of `getParallelLevels`
(`topological.ts:142`): collect every remaining node whose in-set
dependencies are all completed; an empty level with nodes remaining throws
`CyclicDependencyError(Array.from(remaining))`. -/
def levelsRun (m : NodeMap) : Nat → List String → List String →
    List (List String) → Except (List String) (List (List String))
  | 0, _, remaining, _ => .error remaining
  | fuel + 1, completed, remaining, acc =>
      if remaining.isEmpty then .ok acc
      else
        let currentLevel := remaining.filter fun n =>
          (getDeps m n).all fun d =>
            decide (d ∉ keysOf m) || decide (d ∈ completed)
        if currentLevel.isEmpty then .error remaining
        else
          levelsRun m fuel (completed ++ currentLevel)
            (remaining.filter (fun n => decide (n ∉ currentLevel)))
            (acc ++ [currentLevel])

/-- `getParallelLevels(nodes)` from `topological.ts:137`. -/
def getParallelLevels (m : NodeMap) :
    Except (List String) (List (List String)) :=
  levelsRun m (m.length + 1) [] (keysOf m) []

/-- The tail of every graph builder (`graph.ts:72`): compute
`executionOrder` then `parallelLevels` from the closed dependency map; the
first `CyclicDependencyError` aborts construction. -/
def buildGraphCore (m : NodeMap) :
    Except (List String) (List String × List (List String)) := do
  let order ← topologicalSort m
  let levels ← getParallelLevels m
  return (order, levels)

/-- No node transitively depends on itself (all edges within the map). -/
def Acyclic (m : NodeMap) : Prop :=
  ∀ x, ¬ Relation.TransGen (DepOn m) x x

/-- A topologically sorted list: every element's in-set dependencies occur
strictly earlier. -/
def TopoRes (m : NodeMap) (l : List String) : Prop :=
  ∀ pre n post, l = pre ++ n :: post → ∀ d ∈ inSetDeps m n, d ∈ pre

/-- A closed dependency walk of length ≥ 2: first node equals last, each
consecutive pair is a dependency edge of the graph. -/
def ValidCycle (m : NodeMap) (c : List String) : Prop :=
  2 ≤ c.length ∧ c.head? = c.getLast? ∧ List.Chain' (DepOn m) c

/-- Total degree decrement contributed by the processed nodes `res`. -/
def decCount (m : NodeMap) (res : List String) (x : String) : Nat :=
  (res.map (fun v => (dependentsOf m v).count x)).sum

/-- The loop invariant of Kahn's algorithm relating queue, result and
degree map. -/
def KahnInv (m : NodeMap) (queue res : List String) (deg : String → Int) :
    Prop :=
  (res ++ queue).Nodup ∧
  (∀ x ∈ res ++ queue, x ∈ keysOf m) ∧
  (∀ x, deg x = initDegree m x - (decCount m res x : Int)) ∧
  (∀ x ∈ queue, ∀ d ∈ inSetDeps m x, d ∈ res) ∧
  TopoRes m res ∧
  (∀ x ∈ keysOf m, deg x = 0 → x ∈ res ++ queue)

/-- Number of keys not yet DFS-visited; bounds the remaining recursion
depth. -/
def unvisitedCount (m : NodeMap) (st : DfsState) : Nat :=
  ((keysOf m).filter (fun k => decide (k ∉ st.visited))).length

/-- The DFS state invariant: the recursion stack is the path as a set, the
path is a dependency chain of keys inside the visited set, and the "black"
nodes (visited, off the stack) admit a topological enumeration. -/
def StInv (m : NodeMap) (st : DfsState) : Prop :=
  (∀ x, x ∈ st.recStack ↔ x ∈ st.path) ∧
  st.path.Nodup ∧
  (∀ x ∈ st.path, x ∈ st.visited) ∧
  List.Chain' (DepOn m) st.path ∧
  (∀ x ∈ st.visited, x ∈ keysOf m) ∧
  (∃ Lb, Lb.Nodup ∧ (∀ x, x ∈ Lb ↔ (x ∈ st.visited ∧ x ∉ st.recStack)) ∧
    TopoRes m Lb)

/-- Specification of `dfsVisit m fuel`: under the state invariant, with
enough fuel it does not exhaust; a reported cycle is a valid closed
dependency walk; a cycle-free return restores the path and recursion stack
exactly, grows the visited set, and preserves the invariant. -/
def DfsVisitSpec (m : NodeMap) (fuel : Nat) : Prop :=
  ∀ (n : String) (st : DfsState), StInv m st → n ∈ keysOf m →
    n ∉ st.visited → (∀ p, st.path.getLast? = some p → DepOn m p n) →
    (unvisitedCount m st ≤ fuel → dfsVisit m fuel n st ≠ none) ∧
    (∀ st' c, dfsVisit m fuel n st = some (st', some c) →
      ValidCycle m c) ∧
    (∀ st', dfsVisit m fuel n st = some (st', none) →
      st'.path = st.path ∧ st'.recStack = st.recStack ∧
      st.visited ⊆ st'.visited ∧ n ∈ st'.visited ∧ StInv m st')

/-- Specification of one dependency-loop pass (`dfsDepsF`) with
`dfsVisit m fuel` as the recursive visitor: same shape as `DfsVisitSpec`,
and additionally every in-set dependency processed without finding a cycle
ends up "black" (visited and off the recursion stack). -/
def DfsDepsSpec (m : NodeMap) (fuel : Nat) : Prop :=
  ∀ (ds : List String) (st : DfsState) (ncur : String), StInv m st →
    st.path.getLast? = some ncur → (∀ d ∈ ds, d ∈ getDeps m ncur) →
    (unvisitedCount m st ≤ fuel →
      dfsDepsF m (dfsVisit m fuel) ds st ≠ none) ∧
    (∀ st' c, dfsDepsF m (dfsVisit m fuel) ds st = some (st', some c) →
      ValidCycle m c) ∧
    (∀ st', dfsDepsF m (dfsVisit m fuel) ds st = some (st', none) →
      st'.path = st.path ∧ st'.recStack = st.recStack ∧
      st.visited ⊆ st'.visited ∧ StInv m st' ∧
      (∀ d ∈ ds, d ∈ keysOf m → d ∈ st'.visited ∧ d ∉ st'.recStack))

/-- A concrete cache state used by the C9 counterexample: task `"w:t"` has
two registry entries (`"aaaa"`, `"bbbb"`) and active hash `"aaaa"`. -/
def exCacheState : CacheState :=
  (emptyCache.set
      { taskId := "w:t", inputHash := "bbbb", outputs := [] } [] 5).set
    { taskId := "w:t", inputHash := "aaaa", outputs := [] } [] 6

/-! # Theorems -/

/-! ## Task-id round trip (C8) -/

theorem takeWhile_append_stop {ws rest : List Char}
    (h : ∀ c ∈ ws, c ≠ ':') :
    (ws ++ ':' :: rest).takeWhile (fun c => c != ':') = ws := by
  induction ws with
  | nil => simp [List.takeWhile]
  | cons a tl ih =>
      have ha : a ≠ ':' := h a (by simp)
      have htl : ∀ c ∈ tl, c ≠ ':' := fun c hc => h c (by simp [hc])
      have hb : (a != ':') = true := by simp [bne_iff_ne, ha]
      simp [List.takeWhile, hb, ih htl]

/-- C8 (counterexample): as stated over *every* pair `(ws, name)` the
round-trip fails when the workspace id itself contains a colon — for
`ws = "a:b"`, `name = "c"`, `parseTaskId (createTaskId ws name)` splits at
the *first* colon, inside `ws`, and yields `("a", "b:c")`. -/
theorem claim8_round_trip_cex :
    parseTaskId (createTaskId ['a', ':', 'b'] ['c']) ≠
      (['a', ':', 'b'], ['c']) := by
  decide

/-- C8 (amended): for every `(ws, name)` where `ws` is colon-free — `name`
may itself contain `':'` — rendering the task id as `ws ++ ":" ++ name` and
splitting at the first colon is a round-trip:
`parseTaskId (createTaskId ws name) = (ws, name)`. -/
theorem claim8_round_trip (ws name : List Char)
    (hws : ∀ c ∈ ws, c ≠ ':') :
    parseTaskId (createTaskId ws name) = (ws, name) := by
  have hpre : (ws ++ ':' :: name).takeWhile (fun c => c != ':') = ws :=
    takeWhile_append_stop hws
  have hlen : ws.length ≠ (ws ++ ':' :: name).length := by
    simp only [List.length_append, List.length_cons]
    omega
  have hdrop : (ws ++ ':' :: name).drop (ws.length + 1) = name := by
    have : ws ++ ':' :: name = (ws ++ [':']) ++ name := by simp
    rw [this]
    have hl : (ws ++ [':']).length = ws.length + 1 := by simp
    rw [← hl, List.drop_left]
  simp only [parseTaskId, createTaskId]
  rw [List.append_assoc]
  simp only [List.singleton_append, hpre]
  rw [if_neg hlen, hdrop]

/-- C8 witness: the round-trip theorem applied at `ws = "web"`,
`name = "build:fast"` (a task name containing a colon). -/
theorem claim8_round_trip_witness :
    parseTaskId (createTaskId ['w', 'e', 'b'] ['b', 'u', 'i', 'l', 'd', ':', 'f', 'a', 's', 't']) =
      (['w', 'e', 'b'], ['b', 'u', 'i', 'l', 'd', ':', 'f', 'a', 's', 't']) :=
  claim8_round_trip _ _ (by decide)

/-! ## Cache replay fidelity (C5) -/

/-- C5 (counterexample): for the *empty* chunk list the claim fails —
`set` writes `output.json` only when the chunk list is non-empty, so after
storing `outputChunks = []` a `getOutputChunks` returns `none` (no file),
not the empty sequence. -/
theorem claim5_replay_fidelity_cex :
    (emptyCache.set
        { taskId := "w:t", inputHash := "cafe", outputs := [],
          outputChunks := some [] } [] 7).getOutputChunks "w:t" "cafe" ≠
      some ([] : List OutputChunk) := by
  decide

/-- C5 (amended): for every *non-empty* chunk list `C`, after
`store({taskId, inputHash, …, outputChunks = C})` a call to
`getOutputChunks(taskId, inputHash)` returns exactly `C` — same ordering,
same stream tags; after storing an *empty* `C` it returns `none` (no
`output.json` is written, and any stale one was removed). -/
theorem claim5_replay_fidelity (st : CacheState) (t h : String)
    (outs : List String) (C : List OutputChunk)
    (files : List CachedFile) (ts : Nat) :
    (C ≠ [] →
      (st.set { taskId := t, inputHash := h, outputs := outs,
                outputChunks := some C } files ts).getOutputChunks t h =
        some C) ∧
    (C = [] →
      (st.set { taskId := t, inputHash := h, outputs := outs,
                outputChunks := some C } files ts).getOutputChunks t h =
        none) := by
  constructor
  · intro hne
    simp [CacheState.set, CacheState.getOutputChunks, updateCell,
      List.isEmpty_iff, hne]
  · intro hnil
    simp [CacheState.set, CacheState.getOutputChunks, updateCell,
      List.isEmpty_iff, hnil]

/-- C5 witness: the amended fidelity theorem applied to a concrete
two-chunk capture (stdout then stderr). -/
theorem claim5_replay_fidelity_witness :
    (emptyCache.set
        { taskId := "w:t", inputHash := "cafe", outputs := [],
          outputChunks := some [⟨.stdout, "hi\n"⟩, ⟨.stderr, "warn\n"⟩] }
        [] 7).getOutputChunks "w:t" "cafe" =
      some [⟨.stdout, "hi\n"⟩, ⟨.stderr, "warn\n"⟩] :=
  (claim5_replay_fidelity emptyCache "w:t" "cafe" []
      [⟨.stdout, "hi\n"⟩, ⟨.stderr, "warn\n"⟩] [] 7).1 (by decide)

/-! ## Cache invalidation frame (C9) -/

/-- C9 (counterexample): with the explicit hash `""` the claim fails —
`if (inputHash)` treats the empty string as absent, so
`invalidate(t, "")` removes the *whole* task directory: the registry entry
for the unrelated hash `"bbbb"` is destroyed, and the manifest entry is
cleared even though it pointed at `"aaaa" ≠ ""`. -/
theorem claim9_invalidate_frame_cex :
    (exCacheState.invalidate "w:t" (some "")).registries "w:t" "bbbb"
        = none ∧
      exCacheState.registries "w:t" "bbbb" ≠ none := by
  constructor
  · decide
  · decide

/-- C9 (amended): for every *non-empty* explicit hash `h`,
`invalidate(taskId, h)` removes only the registry entry for `h` and that
hash's subtree: every other registry entry of `taskId` is unchanged, every
registry entry and chunk file of every other task is unchanged, and the
manifest entry of `taskId` is cleared iff it previously equalled `h`. -/
theorem claim9_invalidate_frame (st : CacheState) (t h : String)
    (hne : h ≠ "") :
    ((st.invalidate t (some h)).registries t h = none) ∧
    ((st.invalidate t (some h)).chunkFiles t h = none) ∧
    (∀ h', h' ≠ h →
      (st.invalidate t (some h)).registries t h' = st.registries t h') ∧
    (∀ t' h', t' ≠ t →
      (st.invalidate t (some h)).registries t' h' = st.registries t' h' ∧
      (st.invalidate t (some h)).chunkFiles t' h' = st.chunkFiles t' h' ∧
      (st.invalidate t (some h)).active t' = st.active t') ∧
    ((st.invalidate t (some h)).active t =
      if st.active t = some h then none else st.active t) := by
  refine ⟨?_, ?_, ?_, ?_, ?_⟩
  · simp [CacheState.invalidate, hne, updateCell]
  · simp [CacheState.invalidate, hne, updateCell]
  · intro h' hh'
    simp [CacheState.invalidate, hne, updateCell, hh']
  · intro t' h' ht'
    refine ⟨?_, ?_, ?_⟩ <;>
      simp [CacheState.invalidate, hne, updateCell, ht']
  · simp [CacheState.invalidate, hne]

/-- C9 witness: the frame theorem applied to the concrete two-entry state,
invalidating `"aaaa"` (the active hash): the entry for `"bbbb"` survives
and the manifest entry is cleared. -/
theorem claim9_invalidate_frame_witness :
    ((exCacheState.invalidate "w:t" (some "aaaa")).registries "w:t" "aaaa"
        = none) ∧
      ((exCacheState.invalidate "w:t" (some "aaaa")).registries "w:t" "bbbb"
        = exCacheState.registries "w:t" "bbbb") ∧
      ((exCacheState.invalidate "w:t" (some "aaaa")).active "w:t" =
        if exCacheState.active "w:t" = some "aaaa" then none
        else exCacheState.active "w:t") :=
  ⟨(claim9_invalidate_frame exCacheState "w:t" "aaaa" (by decide)).1,
    (claim9_invalidate_frame exCacheState "w:t" "aaaa"
      (by decide)).2.2.1 "bbbb" (by decide),
    (claim9_invalidate_frame exCacheState "w:t" "aaaa" (by decide)).2.2.2.2⟩

/-! ## `hasOutputsOnDisk` vacuous truth (C10) -/

/-- C10: `hasOutputsOnDisk` answers `true` whenever the registry has *no
entry at all* for the hash — not only when a stored entry has an empty
`cachedFiles` list — and in both cases the answer is `true` for every
state of the workspace filesystem, so a caller cannot distinguish an
uncached hash from a cached entry with no files through this operation. -/
theorem claim10_has_outputs_vacuous (st : CacheState) (t h : String)
    (existsAt : String → Bool) :
    (st.registries t h = none →
      st.hasOutputsOnDisk t h existsAt = true) ∧
    (∀ e, st.registries t h = some e → e.cachedFiles = [] →
      st.hasOutputsOnDisk t h existsAt = true) := by
  constructor
  · intro hnone
    simp [CacheState.hasOutputsOnDisk, hnone]
  · intro e he hnil
    simp [CacheState.hasOutputsOnDisk, he, hnil]

/-- C10 witness: on the concrete two-entry state, the never-stored hash
`"dddd"` and a stored-but-fileless entry both give `true`, under an
oracle that reports *no* file as existing. -/
theorem claim10_has_outputs_vacuous_witness :
    exCacheState.registries "w:t" "dddd" = none ∧
      exCacheState.hasOutputsOnDisk "w:t" "dddd" (fun _ => false) = true ∧
      exCacheState.hasOutputsOnDisk "w:t" "aaaa" (fun _ => false) = true :=
  ⟨by decide,
    (claim10_has_outputs_vacuous exCacheState "w:t" "dddd"
      (fun _ => false)).1 (by decide),
    (claim10_has_outputs_vacuous exCacheState "w:t" "aaaa"
      (fun _ => false)).2 ⟨"aaaa", 6, [], []⟩ (by decide) (by decide)⟩

/-! ## Cache determinism (C6) -/

theorem hashFiles_perm_congr {l₁ l₂ : List String}
    {stat₁ stat₂ : String → Option (String × Nat)}
    (hperm : l₁.Perm l₂) (hstat : ∀ p ∈ l₁, stat₁ p = stat₂ p) :
    hashFiles l₁ stat₁ = hashFiles l₂ stat₂ := by
  have htrans : ∀ (a b c : String),
      decide (a ≤ b) → decide (b ≤ c) → decide (a ≤ c) := by
    intro a b c hab hbc
    simp only [decide_eq_true_eq] at *
    exact le_trans hab hbc
  have htotal : ∀ (a b : String), decide (a ≤ b) || decide (b ≤ a) := by
    intro a b
    simpa using le_total a b
  haveI : IsAntisymm String (fun a b => decide (a ≤ b) = true) :=
    ⟨fun a b ha hb => le_antisymm (by simpa using ha) (by simpa using hb)⟩
  have hsortEq : l₁.mergeSort (fun a b => decide (a ≤ b)) =
      l₂.mergeSort (fun a b => decide (a ≤ b)) := by
    apply List.eq_of_perm_of_sorted
      (r := fun a b => decide (a ≤ b) = true)
    · exact ((List.mergeSort_perm l₁ _).trans hperm).trans
        (List.mergeSort_perm l₂ _).symm
    · exact List.sorted_mergeSort htrans htotal l₁
    · exact List.sorted_mergeSort htrans htotal l₂
  have hmem : ∀ p ∈ l₁.mergeSort (fun a b => decide (a ≤ b)),
      stat₁ p = stat₂ p := by
    intro p hp
    exact hstat p ((List.mergeSort_perm l₁ _).mem_iff.mp hp)
  unfold hashFiles
  rw [hsortEq] at hmem ⊢
  exact List.flatMap_congr (fun p hp => by rw [hmem p hp])

/-- C6: determinism of the fingerprint.  Two invocations whose tasks have
the same command and env map, the same `extraArgs`, and whose input glob
patterns expand to the same file set (as a multiset of relative paths) with
identical metadata (mtime ISO string and byte size per path), produce the
same SHA-256 update transcript — hence the same 16-hex-character
`inputHash`.  The expansion order may differ between runs: `hashFiles`
sorts before hashing. -/
theorem claim6_hash_determinism (t₁ t₂ : ResolvedTask)
    (expand₁ expand₂ : List String → List String)
    (stat₁ stat₂ : String → Option (String × Nat))
    (extraArgs : Option (List String))
    (hcmd : t₁.definition.command = t₂.definition.command)
    (henv : t₁.definition.env = t₂.definition.env)
    (hperm : (expand₁ (inputPatterns t₁.definition)).Perm
      (expand₂ (inputPatterns t₂.definition)))
    (hstat : ∀ p ∈ expand₁ (inputPatterns t₁.definition),
      stat₁ p = stat₂ p) :
    hashTaskInputs t₁ expand₁ stat₁ extraArgs =
      hashTaskInputs t₂ expand₂ stat₂ extraArgs := by
  unfold hashTaskInputs
  rw [hcmd, henv, hashFiles_perm_congr hperm hstat]

/-- C6 witness: two runs over the same three files listed in different
orders (and a task record differing only in irrelevant fields) fingerprint
identically. -/
theorem claim6_hash_determinism_witness :
    hashTaskInputs
      ⟨"w:t", "w", "t",
        { command := .shellStr "tsc", inputs := some ["src/**"] }, []⟩
      (fun _ => ["src/b.ts", "src/a.ts", "src/c.ts"])
      (fun p => some (p ++ "@T1", p.length)) none =
    hashTaskInputs
      ⟨"w:t", "w", "t2",
        { command := .shellStr "tsc", inputs := some ["src/**"] }, []⟩
      (fun _ => ["src/a.ts", "src/c.ts", "src/b.ts"])
      (fun p => some (p ++ "@T1", p.length)) none :=
  claim6_hash_determinism _ _ _ _ _ _ none rfl rfl (by decide)
    (fun p _ => rfl)

/-! ## Scheduler lemmas (C3, C4) -/

theorem processLevel_ids_perm (tasks : NodeMap) (run : String → TaskResult)
    (c : Bool) (st : SchedState) (L : List String)
    (hrun : ∀ t, (run t).taskId = t) :
    ((processLevel tasks run c st L).results.map TaskResult.taskId).Perm
      (st.results.map TaskResult.taskId ++ L) := by
  have hskip : ∀ (l : List String),
      l.map (TaskResult.taskId ∘ skipResult) = l := by
    intro l
    induction l with
    | nil => rfl
    | cons a tl ih => simp [ih, skipResult]
  have hruns : ∀ (l : List String),
      l.map (TaskResult.taskId ∘ run) = l := by
    intro l
    induction l with
    | nil => rfl
    | cons a tl ih => simp [ih, hrun a]
  unfold processLevel
  by_cases h : c = false ∧ st.failed ≠ []
  · rw [if_pos h]
    simp only [List.map_append, List.map_map]
    rw [hskip]
  · rw [if_neg h]
    simp only [List.map_append, List.map_map]
    rw [hskip, hruns, List.append_assoc]
    exact (List.filter_append_perm _ L).append_left _

theorem foldl_ids_perm (tasks : NodeMap) (run : String → TaskResult)
    (c : Bool) (hrun : ∀ t, (run t).taskId = t) :
    ∀ (levels : List (List String)) (st : SchedState),
    ((levels.foldl (processLevel tasks run c) st).results.map
        TaskResult.taskId).Perm
      (st.results.map TaskResult.taskId ++ levels.flatten) := by
  intro levels
  induction levels with
  | nil => intro st; simp
  | cons L ls ih =>
      intro st
      have step := processLevel_ids_perm tasks run c st L hrun
      rw [List.foldl_cons]
      refine ((ih _).trans (step.append_right ls.flatten)).trans ?_
      rw [List.flatten_cons, List.append_assoc]

/-- C4: the 1:1 result invariant.  For every task graph whose parallel
levels partition the task map's key set, and every oracle, continue-on-error
flag (and concurrency, which does not affect the emitted list), the
scheduler returns exactly one result per task: the multiset of `taskId`s in
the result list is a permutation of the key set of `graph.tasks`. -/
theorem claim4_one_result_per_task (tasks : NodeMap)
    (levels : List (List String)) (run : String → TaskResult) (c : Bool)
    (hrun : ∀ t, (run t).taskId = t)
    (hjoin : levels.flatten.Perm (keysOf tasks)) :
    ((scheduleTasks tasks levels run c).map TaskResult.taskId).Perm
      (keysOf tasks) := by
  have h := foldl_ids_perm tasks run c hrun levels ⟨[], [], []⟩
  simpa [scheduleTasks] using h.trans hjoin

/-- C4 witness: a diamond graph `d → {b, c} → a`, scheduled with a failing
oracle and `continueOnError = false`: one result per task nonetheless. -/
theorem claim4_one_result_per_task_witness :
    ((scheduleTasks [("a", []), ("b", ["a"]), ("c", ["a"]), ("d", ["b", "c"])]
        [["a"], ["b", "c"], ["d"]]
        (fun t => if t = "a" then ⟨"a", .failed, 2, none, none⟩
          else ⟨t, .success, 1, none, none⟩) false).map
      TaskResult.taskId).Perm
      (keysOf [("a", []), ("b", ["a"]), ("c", ["a"]), ("d", ["b", "c"])]) :=
  claim4_one_result_per_task _ _ _ _
    (fun t => by by_cases h : t = "a" <;> simp [h])
    (by decide)

theorem foldl_after_failure (tasks : NodeMap) (run : String → TaskResult) :
    ∀ (levels : List (List String)) (st : SchedState), st.failed ≠ [] →
    (levels.foldl (processLevel tasks run false) st).results =
      st.results ++ levels.flatten.map skipResult := by
  intro levels
  induction levels with
  | nil => intro st _; simp
  | cons L ls ih =>
      intro st hf
      have hstep : processLevel tasks run false st L =
          { st with results := st.results ++ L.map skipResult } := by
        unfold processLevel
        rw [if_pos ⟨rfl, hf⟩]
      rw [List.foldl_cons, hstep, ih _ (by exact hf)]
      simp

theorem processLevel_result_ids (tasks : NodeMap) (run : String → TaskResult)
    (c : Bool) (st : SchedState) (L : List String)
    (hrun : ∀ t, (run t).taskId = t) (r : TaskResult)
    (hr : r ∈ (processLevel tasks run c st L).results) :
    r ∈ st.results ∨ r.taskId ∈ L := by
  unfold processLevel at hr
  by_cases h : c = false ∧ st.failed ≠ []
  · rw [if_pos h] at hr
    simp only [List.mem_append] at hr
    rcases hr with hr | hr
    · exact Or.inl hr
    · obtain ⟨t, ht, rfl⟩ := List.mem_map.mp hr
      exact Or.inr ht
  · rw [if_neg h] at hr
    simp only [List.mem_append] at hr
    rcases hr with (hr | hr) | hr
    · exact Or.inl hr
    · obtain ⟨t, ht, rfl⟩ := List.mem_map.mp hr
      exact Or.inr (List.mem_of_mem_filter ht)
    · obtain ⟨t, ht, rfl⟩ := List.mem_map.mp hr
      rw [hrun t]
      exact Or.inr (List.mem_of_mem_filter ht)

theorem foldl_result_ids (tasks : NodeMap) (run : String → TaskResult)
    (c : Bool) (hrun : ∀ t, (run t).taskId = t) :
    ∀ (levels : List (List String)) (st : SchedState) (r : TaskResult),
    r ∈ (levels.foldl (processLevel tasks run c) st).results →
    r ∈ st.results ∨ r.taskId ∈ levels.flatten := by
  intro levels
  induction levels with
  | nil => intro st r hr; exact Or.inl hr
  | cons L ls ih =>
      intro st r hr
      rcases ih _ r hr with hr' | hr'
      · rcases processLevel_result_ids tasks run c st L hrun r hr' with
          h | h
        · exact Or.inl h
        · exact Or.inr (by simp [h])
      · exact Or.inr (by simp [hr'])

theorem processLevel_failed_classified (tasks : NodeMap)
    (run : String → TaskResult) (st : SchedState) (L : List String)
    (hrun : ∀ t, (run t).taskId = t) (hf0 : st.failed = [])
    (r : TaskResult)
    (hr : r ∈ (processLevel tasks run false st L).results)
    (hnotin : r ∉ st.results) (hfail : r.status = .failed) :
    r.taskId ∈ (processLevel tasks run false st L).failed := by
  unfold processLevel at hr ⊢
  have hcond : ¬(false = false ∧ st.failed ≠ []) := by
    simp [hf0]
  rw [if_neg hcond] at hr ⊢
  simp only [List.mem_append] at hr
  rcases hr with (hr | hr) | hr
  · exact absurd hr hnotin
  · obtain ⟨t, _, rfl⟩ := List.mem_map.mp hr
    simp [skipResult] at hfail
  · obtain ⟨t, ht, rfl⟩ := List.mem_map.mp hr
    rw [hrun t]
    simp only [List.mem_append]
    right
    exact List.mem_filter.mpr ⟨ht, by simp [hfail]⟩

theorem mem_split_of_mem_flatten {X : String} {ls : List (List String)}
    (h : X ∈ ls.flatten) :
    ∃ pre L post, ls = pre ++ L :: post ∧ X ∈ L := by
  obtain ⟨L, hL, hX⟩ := List.mem_flatten.mp h
  obtain ⟨pre, post, rfl⟩ := List.append_of_mem hL
  exact ⟨pre, L, post, rfl, hX⟩

theorem nodup_flatten_not_elsewhere {ls pre post : List (List String)}
    {L : List String} (h : ls = pre ++ L :: post)
    (hnd : ls.flatten.Nodup) {b : String} (hb : b ∈ L) :
    b ∉ pre.flatten ∧ b ∉ post.flatten := by
  subst h
  rw [List.flatten_append, List.flatten_cons] at hnd
  rcases List.nodup_append.mp hnd with ⟨_, hnd2, hdisj⟩
  rcases List.nodup_append.mp hnd2 with ⟨_, _, hdisj2⟩
  exact ⟨fun hpre => hdisj hpre (List.mem_append.mpr (Or.inl hb)),
    fun hpost => hdisj2 hb hpost⟩

theorem split_split {α : Type} {l p₁ p₂ : List α} {a₁ a₂ : α}
    {s₁ s₂ : List α} (h₁ : l = p₁ ++ a₁ :: s₁) (h₂ : l = p₂ ++ a₂ :: s₂)
    (hlt : p₁.length < p₂.length) :
    ∃ mid, p₂ = p₁ ++ a₁ :: mid ∧ s₁ = mid ++ a₂ :: s₂ := by
  have h : p₁ ++ a₁ :: s₁ = p₂ ++ a₂ :: s₂ := by rw [← h₁, ← h₂]
  rcases List.append_eq_append_iff.mp h with ⟨a', ha', hx⟩ | ⟨c', hc', _⟩
  · cases a' with
    | nil =>
        exfalso
        rw [ha'] at hlt
        simp at hlt
    | cons b mid =>
        rw [List.cons_append] at hx
        injection hx with hb hs
        subst hb
        exact ⟨mid, ha', hs⟩
  · exfalso
    rw [hc', List.length_append] at hlt
    omega

theorem getD_append_cons {α : Type} (pre : List α) (a : α) (post : List α)
    (d : α) : (pre ++ a :: post).getD pre.length d = a := by
  induction pre with
  | nil => rfl
  | cons p ps ih => simpa [List.getD] using ih

theorem depOn_level_later (tasks : NodeMap) (levels : List (List String))
    (hnodup : levels.flatten.Nodup)
    (hvalid : ValidLevels tasks levels)
    (hjoin : levels.flatten.Perm (keysOf tasks))
    {a b : String} (hdep : DepOn tasks a b) {pre post : List (List String)}
    {L : List String} (hsplit : levels = pre ++ L :: post) (hbL : b ∈ L) :
    a ∈ post.flatten := by
  obtain ⟨haK, hbK, hbdep⟩ := hdep
  have haflat : a ∈ levels.flatten := hjoin.symm.subset haK
  obtain ⟨pre₂, L₂, post₂, hsplit₂, haL₂⟩ := mem_split_of_mem_flatten haflat
  -- validity at a's level: b sits strictly earlier than a's level
  have hbpre₂ : b ∈ pre₂.flatten := by
    have hidx : pre₂.length < levels.length := by
      rw [hsplit₂]; simp
    have hget : levels.getD pre₂.length [] = L₂ := by
      rw [hsplit₂, getD_append_cons]
    have htake : levels.take pre₂.length = pre₂ := by
      rw [hsplit₂, List.take_left]
    have := hvalid pre₂.length hidx a (hget ▸ haL₂) b hbdep hbK
    rwa [htake] at this
  have hnotpre : b ∉ pre.flatten :=
    (nodup_flatten_not_elsewhere hsplit hnodup hbL).1
  -- compare the two split positions
  rcases Nat.lt_trichotomy pre.length pre₂.length with hlt | heq | hgt
  · obtain ⟨mid, _, hpost⟩ := split_split hsplit hsplit₂ hlt
    rw [hpost, List.flatten_append, List.flatten_cons]
    simp only [List.mem_append]
    right; left; exact haL₂
  · exfalso
    have heq' : pre ++ L :: post = pre₂ ++ L₂ :: post₂ := by
      rw [← hsplit, ← hsplit₂]
    obtain ⟨hpe, _⟩ := List.append_inj heq' heq
    rw [← hpe] at hbpre₂
    exact hnotpre hbpre₂
  · exfalso
    obtain ⟨mid, hp₁, _⟩ := split_split hsplit₂ hsplit hgt
    rw [hp₁, List.flatten_append, List.flatten_cons] at hnotpre
    simp only [List.mem_append, not_or] at hnotpre
    exact hnotpre.1 hbpre₂

theorem transdep_in_post (tasks : NodeMap) (levels : List (List String))
    (hnodup : levels.flatten.Nodup)
    (hvalid : ValidLevels tasks levels)
    (hjoin : levels.flatten.Perm (keysOf tasks))
    {X : String} {pre post : List (List String)} {L : List String}
    (hsplit : levels = pre ++ L :: post) (hXL : X ∈ L) :
    ∀ Y, Relation.TransGen (DepOn tasks) Y X → Y ∈ post.flatten := by
  intro Y h
  induction h using Relation.TransGen.head_induction_on with
  | base hdep =>
      exact depOn_level_later tasks levels hnodup hvalid hjoin hdep hsplit
        hXL
  | ih hdep htrans ihz =>
      obtain ⟨p₂, L₂, s₂, hpost, hZ⟩ := mem_split_of_mem_flatten ihz
      have hsplit₂ : levels = (pre ++ L :: p₂) ++ L₂ :: s₂ := by
        rw [hsplit, hpost]; simp
      have hmem := depOn_level_later tasks levels hnodup hvalid hjoin hdep
        hsplit₂ hZ
      rw [hpost, List.flatten_append, List.flatten_cons]
      simp only [List.mem_append]
      right; right; exact hmem

/-- C3: scheduler failure cascade with `continueOnError = false`.  If some
task `X` produced a `failed` result, every task having `X` among its
transitive dependencies appears in the returned result list with status
`skipped` and duration `0`.  Hypotheses: the parallel levels partition the
task map's keys and respect dependencies (the `TaskGraph` invariants), and
the runner stamps each result with its own task id. -/
theorem claim3_failure_cascade (tasks : NodeMap)
    (levels : List (List String)) (run : String → TaskResult)
    (hrun : ∀ t, (run t).taskId = t)
    (hnodup : levels.flatten.Nodup)
    (hjoin : levels.flatten.Perm (keysOf tasks))
    (hvalid : ValidLevels tasks levels)
    (X : String)
    (hX : ∃ r ∈ scheduleTasks tasks levels run false,
      r.taskId = X ∧ r.status = .failed) :
    ∀ Y, Relation.TransGen (DepOn tasks) Y X →
      skipResult Y ∈ scheduleTasks tasks levels run false := by
  obtain ⟨rX, hrXmem, hid, hst⟩ := hX
  intro Y hY
  -- X sits in exactly one level
  have hXflat : X ∈ levels.flatten := by
    rcases foldl_result_ids tasks run false hrun levels ⟨[], [], []⟩ rX
        (by simpa [scheduleTasks] using hrXmem) with h | h
    · simp at h
    · rwa [hid] at h
  obtain ⟨pre, L, post, hsplit, hXL⟩ := mem_split_of_mem_flatten hXflat
  have hYpost : Y ∈ post.flatten :=
    transdep_in_post tasks levels hnodup hvalid hjoin hsplit hXL Y hY
  -- decompose the fold at X's level
  have hfold : scheduleTasks tasks levels run false =
      (post.foldl (processLevel tasks run false)
        (processLevel tasks run false
          (pre.foldl (processLevel tasks run false) ⟨[], [], []⟩) L)).results := by
    rw [scheduleTasks, hsplit, List.foldl_append, List.foldl_cons]
  set stPre := pre.foldl (processLevel tasks run false) ⟨[], [], []⟩ with hstPre
  by_cases hfp : stPre.failed = []
  · -- X's failure is recorded while processing level L
    set stX := processLevel tasks run false stPre L with hstX
    have hXnotpost : X ∉ post.flatten :=
      (nodup_flatten_not_elsewhere hsplit hnodup hXL).2
    have hXnotpre : X ∉ pre.flatten :=
      (nodup_flatten_not_elsewhere hsplit hnodup hXL).1
    have hrXstX : rX ∈ stX.results := by
      rcases foldl_result_ids tasks run false hrun post stX rX
          (by rw [hfold] at hrXmem; exact hrXmem) with h | h
      · exact h
      · rw [hid] at h; exact absurd h hXnotpost
    have hrXnotPre : rX ∉ stPre.results := by
      intro hmem
      rcases foldl_result_ids tasks run false hrun pre ⟨[], [], []⟩ rX
          hmem with h | h
      · simp at h
      · rw [hid] at h; exact absurd h hXnotpre
    have hXfailed : X ∈ stX.failed := by
      have := processLevel_failed_classified tasks run stPre L hrun hfp
        rX hrXstX hrXnotPre hst
      rwa [hid] at this
    have hfinal := foldl_after_failure tasks run post stX
      (List.ne_nil_of_mem hXfailed)
    rw [hfold, hfinal]
    simp only [List.mem_append]
    right
    exact List.mem_map.mpr ⟨Y, hYpost, rfl⟩
  · -- an earlier failure: everything from level L on is skipped
    have hfinal := foldl_after_failure tasks run (L :: post) stPre hfp
    rw [hfold, ← List.foldl_cons, hfinal]
    simp only [List.mem_append]
    right
    refine List.mem_map.mpr ⟨Y, ?_, rfl⟩
    rw [List.flatten_cons]
    exact List.mem_append.mpr (Or.inr hYpost)

/-- C3 witness: chain `c → b → a` with `a` failing: `c` (a transitive
dependent of `a`) is emitted as `skipped` with duration `0`. -/
theorem claim3_failure_cascade_witness :
    skipResult "c" ∈ scheduleTasks [("a", []), ("b", ["a"]), ("c", ["b"])]
      [["a"], ["b"], ["c"]]
      (fun t => if t = "a" then ⟨"a", .failed, 2, none, none⟩
        else ⟨t, .success, 1, none, none⟩) false :=
  claim3_failure_cascade _ _ _
    (fun t => by by_cases h : t = "a" <;> simp [h])
    (by decide) (by decide) (by decide) "a" (by decide) "c"
    (Relation.TransGen.head
      (show DepOn [("a", []), ("b", ["a"]), ("c", ["b"])] "c" "b" by decide)
      (Relation.TransGen.single
        (show DepOn [("a", []), ("b", ["a"]), ("c", ["b"])] "b" "a"
          by decide)))

/-! ## Runner result interpretation (C7) -/

/-- C7: the runner's interpretation of a process result, in source order:
`killed` wins and yields `failed` with a `TaskTimeout` error; otherwise a
non-zero (or `null`) exit code with `allowFailure` yields `success`;
otherwise a non-zero exit code yields `failed` with a `TaskExecution` error
carrying the exit code; exit code `0` yields `success`. -/
theorem claim7_process_result_interpretation
    (task : ResolvedTask) (res : ProcessResult) (dur : Nat) :
    (res.killed = true →
      (handleProcessResult task res dur).status = .failed ∧
      (handleProcessResult task res dur).error =
        some (.taskTimeout task.id
          (task.definition.timeout.getD DEFAULT_TIMEOUT))) ∧
    (res.killed = false → res.exitCode ≠ some 0 →
      task.definition.allowFailure = some true →
      (handleProcessResult task res dur).status = .success) ∧
    (res.killed = false → res.exitCode ≠ some 0 →
      task.definition.allowFailure ≠ some true →
      (handleProcessResult task res dur).status = .failed ∧
      (handleProcessResult task res dur).error =
        some (.taskExecution task.id res.exitCode res.stderr)) ∧
    (res.killed = false → res.exitCode = some 0 →
      (handleProcessResult task res dur).status = .success) := by
  refine ⟨?_, ?_, ?_, ?_⟩
  · intro hk
    simp [handleProcessResult, hk]
  · intro hk hexit hallow
    simp [handleProcessResult, hk, hexit, hallow]
  · intro hk hexit hallow
    simp [handleProcessResult, hk, hexit, hallow]
  · intro hk hexit
    simp [handleProcessResult, hk, hexit]

/-- C7 witness: the interpretation theorem applied at concrete inputs
exercising all four branches. -/
theorem claim7_process_result_interpretation_witness :
    ((handleProcessResult
        ⟨"w:t", "w", "t", { command := .shellStr "x" }, []⟩
        ⟨some 1, "", "", true⟩ 3).status = .failed ∧
      (handleProcessResult
        ⟨"w:t", "w", "t", { command := .shellStr "x" }, []⟩
        ⟨some 1, "", "", true⟩ 3).error =
        some (.taskTimeout "w:t" 300000)) ∧
    (handleProcessResult
        ⟨"w:t", "w", "t",
          { command := .shellStr "x", allowFailure := some true }, []⟩
        ⟨some 2, "", "", false⟩ 3).status = .success ∧
    ((handleProcessResult
        ⟨"w:t", "w", "t", { command := .shellStr "x" }, []⟩
        ⟨some 2, "", "boom", false⟩ 3).status = .failed ∧
      (handleProcessResult
        ⟨"w:t", "w", "t", { command := .shellStr "x" }, []⟩
        ⟨some 2, "", "boom", false⟩ 3).error =
        some (.taskExecution "w:t" (some 2) "boom")) ∧
    (handleProcessResult
        ⟨"w:t", "w", "t", { command := .shellStr "x" }, []⟩
        ⟨some 0, "", "", false⟩ 3).status = .success := by
  refine ⟨?_, ?_, ?_, ?_⟩
  · exact (claim7_process_result_interpretation _ _ _).1 rfl
  · exact (claim7_process_result_interpretation _ _ _).2.1 rfl
      (by decide) rfl
  · exact (claim7_process_result_interpretation _ _ _).2.2.1 rfl
      (by decide) (by decide)
  · exact (claim7_process_result_interpretation _ _ _).2.2.2 rfl rfl

/-! ## Kahn's algorithm: counting lemmas -/

theorem inSetDeps_subset_keys {m : NodeMap} {x d : String}
    (h : d ∈ inSetDeps m x) : d ∈ keysOf m := by
  have := List.of_mem_filter h
  simpa using this

theorem getDeps_of_not_key {m : NodeMap} {x : String}
    (h : x ∉ keysOf m) : getDeps m x = [] := by
  induction m with
  | nil => rfl
  | cons p rest ih =>
      have hne : p.1 ≠ x := by
        intro he
        exact h (by simp [keysOf, he])
      have hx : x ∉ keysOf rest := fun hm => h (by simp [keysOf] at hm ⊢; right; exact hm)
      simp only [getDeps, lookupDeps, if_neg hne] at *
      exact ih hx

theorem dependentsOf_mem_keys {m : NodeMap} {d x : String}
    (h : x ∈ dependentsOf m d) : x ∈ keysOf m := by
  unfold dependentsOf at h
  by_cases hd : d ∈ keysOf m
  · rw [if_pos hd] at h
    obtain ⟨p, hp, hx⟩ := List.mem_flatMap.mp h
    have := List.eq_of_mem_replicate hx
    subst this
    exact List.mem_map.mpr ⟨p, hp, rfl⟩
  · rw [if_neg hd] at h
    simp at h

theorem count_flatMap_replicate {v x : String} :
    ∀ (m : NodeMap), (keysOf m).Nodup →
    (m.flatMap (fun p => List.replicate (p.2.count v) p.1)).count x =
      (getDeps m x).count v := by
  intro m
  induction m with
  | nil => intro _; rfl
  | cons p rest ih =>
      obtain ⟨k, ds⟩ := p
      intro hnd
      rw [show keysOf ((k, ds) :: rest) = k :: keysOf rest from rfl,
        List.nodup_cons] at hnd
      obtain ⟨hk, hnd'⟩ := hnd
      rw [List.flatMap_cons, List.count_append, ih hnd']
      by_cases hx : k = x
      · subst hx
        have hrest : getDeps rest k = [] := getDeps_of_not_key hk
        rw [show getDeps ((k, ds) :: rest) k = ds from by
          simp [getDeps, lookupDeps]]
        rw [hrest, List.count_replicate]
        simp
      · rw [show getDeps ((k, ds) :: rest) x = getDeps rest x from by
          simp [getDeps, lookupDeps, hx]]
        rw [List.count_replicate]
        have : (k == x) = false := beq_eq_false_iff_ne.mpr hx
        simp [this]

theorem count_dependentsOf {m : NodeMap} (hkeys : (keysOf m).Nodup)
    {v : String} (hv : v ∈ keysOf m) (x : String) :
    (dependentsOf m v).count x = (inSetDeps m x).count v := by
  unfold dependentsOf
  rw [if_pos hv, count_flatMap_replicate m hkeys]
  unfold inSetDeps
  rw [List.count_filter (by simpa using hv)]

theorem countP_or_disjoint {p q : String → Bool} :
    ∀ (l : List String), (∀ e, ¬(p e = true ∧ q e = true)) →
    l.countP (fun e => p e || q e) = l.countP p + l.countP q := by
  intro l
  induction l with
  | nil => intro _; rfl
  | cons a tl ih =>
      intro hdisj
      rw [List.countP_cons, List.countP_cons, List.countP_cons, ih hdisj]
      by_cases hp : p a = true
      · have hq : ¬ q a = true := fun hq => hdisj a ⟨hp, hq⟩
        simp [hp, hq]
        omega
      · by_cases hq : q a = true <;> simp [hp, hq] <;> omega

theorem count_nodup_mem {res : List String} (hnd : res.Nodup)
    {e : String} : res.count e = if e ∈ res then 1 else 0 := by
  by_cases he : e ∈ res
  · rw [if_pos he]
    exact List.count_eq_one_of_mem hnd he
  · rw [if_neg he]
    exact List.count_eq_zero.mpr he

theorem sum_map_add (f g : String → Nat) :
    ∀ (l : List String),
    (l.map (fun u => f u + g u)).sum = (l.map f).sum + (l.map g).sum := by
  intro l
  induction l with
  | nil => rfl
  | cons a tl ih =>
      simp only [List.map_cons, List.sum_cons, ih]
      omega

theorem sum_map_indicator (e : String) :
    ∀ (res : List String),
    (res.map (fun u => if e = u then 1 else 0)).sum = res.count e := by
  intro res
  induction res with
  | nil => rfl
  | cons r rs ih =>
      rw [List.map_cons, List.sum_cons, ih, List.count_cons]
      by_cases h : e = r
      · subst h
        simp [Nat.add_comm]
      · have h2 : (r == e) = false :=
          beq_eq_false_iff_ne.mpr (Ne.symm h)
        simp [h, h2]

theorem sum_count_nodup (res : List String) (hnd : res.Nodup) :
    ∀ (l : List String),
    (res.map (fun u => l.count u)).sum =
      (l.filter (fun e => decide (e ∈ res))).length := by
  intro l
  induction l with
  | nil =>
      simp [List.count_nil]
  | cons e tl ih =>
      have hcount : res.map (fun u => (e :: tl).count u) =
          res.map (fun u => tl.count u + (if e = u then 1 else 0)) :=
        List.map_congr_left (fun u _ => by
          rw [List.count_cons]
          simp [beq_iff_eq])
      rw [hcount, sum_map_add, ih, sum_map_indicator,
        count_nodup_mem hnd, List.filter_cons]
      by_cases he : e ∈ res <;> simp [he]

theorem decCount_eq_filter {m : NodeMap} (hkeys : (keysOf m).Nodup)
    {res : List String} (hnd : res.Nodup)
    (hres : ∀ u ∈ res, u ∈ keysOf m) (x : String) :
    decCount m res x = ((inSetDeps m x).filter
      (fun e => decide (e ∈ res))).length := by
  unfold decCount
  have hmap : res.map (fun v => (dependentsOf m v).count x) =
      res.map (fun v => (inSetDeps m x).count v) :=
    List.map_congr_left (fun v hv => count_dependentsOf hkeys (hres v hv) x)
  rw [hmap, sum_count_nodup res hnd]

theorem filter_count_le {S : List String} {v : String} (hv : v ∉ S) :
    ∀ (l : List String),
    (l.filter (fun e => decide (e ∈ S))).length + l.count v ≤ l.length := by
  intro l
  induction l with
  | nil => simp
  | cons a tl ih =>
      have h1 := ih
      rw [List.filter_cons, List.count_cons, List.length_cons]
      by_cases ha : a ∈ S
      · have hne : a ≠ v := fun he => hv (he ▸ ha)
        have hb : (a == v) = false := beq_eq_false_iff_ne.mpr hne
        rw [if_pos (by simp [ha]), List.length_cons, hb,
          if_neg (by simp)]
        omega
      · rw [if_neg (by simp [ha])]
        by_cases hav : a = v
        · rw [show (a == v) = true from beq_iff_eq.mpr hav, if_pos rfl]
          omega
        · rw [show (a == v) = false from beq_eq_false_iff_ne.mpr hav,
            if_neg (by simp)]
          omega

theorem mem_or_of_filter_count {S : List String} {v : String} (hv : v ∉ S) :
    ∀ (l : List String),
    l.length ≤ (l.filter (fun e => decide (e ∈ S))).length + l.count v →
    ∀ e ∈ l, e ∈ S ∨ e = v := by
  intro l
  induction l with
  | nil => intro _ e he; simp at he
  | cons a tl ih =>
      intro hlen e he
      rw [List.filter_cons, List.count_cons, List.length_cons] at hlen
      by_cases ha : a ∈ S
      · rcases List.mem_cons.mp he with rfl | he'
        · exact Or.inl ha
        · refine ih ?_ e he'
          have hne : a ≠ v := fun h2 => hv (h2 ▸ ha)
          rw [if_pos (by simp [ha]), List.length_cons,
            show (a == v) = false from beq_eq_false_iff_ne.mpr hne,
            if_neg (by simp)] at hlen
          omega
      · rw [if_neg (by simp [ha])] at hlen
        by_cases hav : a = v
        · rcases List.mem_cons.mp he with rfl | he'
          · exact Or.inr hav
          · refine ih ?_ e he'
            rw [show (a == v) = true from beq_iff_eq.mpr hav,
              if_pos rfl] at hlen
            omega
        · exfalso
          have hle := filter_count_le hv tl
          rw [show (a == v) = false from beq_eq_false_iff_ne.mpr hav,
            if_neg (by simp)] at hlen
          omega

/-! ## Kahn's algorithm: the inner decrement loop -/

theorem processDeps_deg (ds : List String) :
    ∀ (deg : String → Int) (queue : List String) (y : String),
    (processDeps ds deg queue).1 y = deg y - (ds.count y : Int) := by
  induction ds with
  | nil => intro deg q y; simp [processDeps]
  | cons x rest ih =>
      intro deg q y
      simp only [processDeps]
      rw [ih, List.count_cons]
      by_cases hy : y = x
      · subst hy
        rw [if_pos rfl, show (y == y) = true from beq_self_eq_true y,
          if_pos rfl]
        push_cast
        ring
      · rw [if_neg hy,
          show (x == y) = false from
            beq_eq_false_iff_ne.mpr (fun h => hy h.symm),
          if_neg (by simp)]
        simp

theorem processDeps_queue (ds : List String) :
    ∀ (deg : String → Int) (queue : List String),
    ∃ ps, (processDeps ds deg queue).2 = queue ++ ps ∧ ps.Nodup ∧
      (∀ x, x ∈ ps ↔ 1 ≤ deg x ∧ deg x ≤ (ds.count x : Int)) := by
  induction ds with
  | nil =>
      intro deg q
      refine ⟨[], by simp [processDeps], List.nodup_nil, fun x => ?_⟩
      simp only [List.not_mem_nil, List.count_nil, Nat.cast_zero,
        false_iff, not_and]
      intro h1
      omega
  | cons a rest ih =>
      intro deg q
      simp only [processDeps]
      obtain ⟨ps₁, hq, hnd, hmem⟩ :=
        ih (fun y => if y = a then deg a - 1 else deg y)
          (if deg a - 1 = 0 then q ++ [a] else q)
      by_cases hd : deg a - 1 = 0
      · refine ⟨a :: ps₁, ?_, ?_, ?_⟩
        · rw [hq, if_pos hd]
          simp
        · refine List.nodup_cons.mpr ⟨?_, hnd⟩
          intro ha
          have := (hmem a).mp ha
          rw [if_pos rfl] at this
          omega
        · intro x
          by_cases hx : x = a
          · subst hx
            simp only [List.mem_cons, true_or, true_iff]
            have hc : 1 ≤ ((x :: rest).count x : Int) := by
              have h0 : 0 < (x :: rest).count x :=
                List.count_pos_iff.mpr (by simp)
              omega
            exact ⟨by omega, by omega⟩
          · have hmx := hmem x
            rw [if_neg hx] at hmx
            simp only [List.mem_cons, hx, false_or]
            rw [hmx, List.count_cons,
              show (a == x) = false from
                beq_eq_false_iff_ne.mpr (fun h => hx h.symm),
              if_neg (by simp)]
            simp
      · refine ⟨ps₁, ?_, hnd, ?_⟩
        · rw [hq, if_neg hd]
        · intro x
          by_cases hx : x = a
          · subst hx
            have hmx := hmem x
            rw [if_pos rfl] at hmx
            rw [hmx, List.count_cons,
              show (x == x) = true from beq_self_eq_true x, if_pos rfl]
            push_cast
            omega
          · have hmx := hmem x
            rw [if_neg hx] at hmx
            rw [hmx, List.count_cons,
              show (a == x) = false from
                beq_eq_false_iff_ne.mpr (fun h => hx h.symm),
              if_neg (by simp)]
            simp

/-! ## Kahn's algorithm: invariant preservation -/

theorem concat_split {α : Type} {l : List α} {v : α} {pre post : List α}
    {n : α} (h : l ++ [v] = pre ++ n :: post) :
    (post = [] ∧ pre = l ∧ n = v) ∨
      (∃ q, post = q ++ [v] ∧ l = pre ++ n :: q) := by
  rcases List.eq_nil_or_concat post with rfl | ⟨q, x, rfl⟩
  · left
    have h2 := List.append_inj' h (by simp)
    exact ⟨rfl, h2.1.symm, by simpa using h2.2.symm⟩
  · right
    have h2 : l ++ [v] = (pre ++ n :: q) ++ [x] := by
      rw [h]
      simp [List.concat_eq_append]
    have h3 := List.append_inj' h2 rfl
    have hx : v = x := by simpa using h3.2
    exact ⟨q, by rw [hx, List.concat_eq_append], h3.1⟩

theorem topoRes_concat {m : NodeMap} {res : List String} {v : String}
    (h : TopoRes m res) (hv : ∀ d ∈ inSetDeps m v, d ∈ res) :
    TopoRes m (res ++ [v]) := by
  intro pre n post hsplit d hd
  rcases concat_split hsplit with ⟨_, rfl, rfl⟩ | ⟨q, _, hres⟩
  · exact hv d hd
  · exact h pre n q hres d hd

theorem topoRes_mem_subset {m : NodeMap} {res : List String}
    (h : TopoRes m res) {x : String} (hx : x ∈ res) :
    ∀ d ∈ inSetDeps m x, d ∈ res := by
  obtain ⟨pre, post, rfl⟩ := List.append_of_mem hx
  intro d hd
  exact List.mem_append.mpr (Or.inl (h pre x post rfl d hd))

theorem deg_eq_zero_of_deps_subset {m : NodeMap}
    (hkeys : (keysOf m).Nodup) {res : List String} (hnd : res.Nodup)
    (hresk : ∀ u ∈ res, u ∈ keysOf m) {deg : String → Int}
    (hdeg : ∀ x, deg x = initDegree m x - (decCount m res x : Int))
    {x : String} (hxk : x ∈ keysOf m)
    (hsub : ∀ d ∈ inSetDeps m x, d ∈ res) : deg x = 0 := by
  rw [hdeg, decCount_eq_filter hkeys hnd hresk, initDegree, if_pos hxk]
  have hf : (inSetDeps m x).filter (fun e => decide (e ∈ res)) =
      inSetDeps m x :=
    List.filter_eq_self.mpr (fun d hd => by simp [hsub d hd])
  rw [hf]
  omega

theorem kahnInv_step {m : NodeMap} (hkeys : (keysOf m).Nodup)
    {v : String} {queue res : List String} {deg : String → Int}
    (hinv : KahnInv m (v :: queue) res deg) :
    KahnInv m (processDeps (dependentsOf m v) deg queue).2 (res ++ [v])
      (processDeps (dependentsOf m v) deg queue).1 := by
  obtain ⟨hnd, hmemK, hdeg, hqdeps, htopo, hzero⟩ := hinv
  have hvK : v ∈ keysOf m := hmemK v (by simp)
  rcases List.nodup_append.mp hnd with ⟨hndres, hndvq, hdisj⟩
  have hvnq : v ∉ queue := (List.nodup_cons.mp hndvq).1
  have hndq : queue.Nodup := (List.nodup_cons.mp hndvq).2
  have hvnres : v ∉ res := fun h => hdisj h (by simp)
  have hresk : ∀ u ∈ res, u ∈ keysOf m := fun u hu =>
    hmemK u (List.mem_append.mpr (Or.inl hu))
  have hvdeps : ∀ d ∈ inSetDeps m v, d ∈ res := hqdeps v (by simp)
  obtain ⟨ps, hq2, hpsnd, hpsmem⟩ :=
    processDeps_queue (dependentsOf m v) deg queue
  have hdeg2 : ∀ y, (processDeps (dependentsOf m v) deg queue).1 y =
      deg y - ((dependentsOf m v).count y : Int) :=
    processDeps_deg (dependentsOf m v) deg queue
  -- members of ps are keys
  have hpskey : ∀ x ∈ ps, x ∈ keysOf m := by
    intro x hx
    have h1 := (hpsmem x).mp hx
    have hmemdep : x ∈ dependentsOf m v := by
      refine List.count_pos_iff.mp ?_
      omega
    exact dependentsOf_mem_keys hmemdep
  -- members of ps have all their in-set dependencies inside res ++ [v]
  have hpsdeps : ∀ x ∈ ps, ∀ d ∈ inSetDeps m x, d ∈ res ++ [v] := by
    intro x hx d hd
    have h1 := (hpsmem x).mp hx
    have hxk : x ∈ keysOf m := hpskey x hx
    have hcnt : ((dependentsOf m v).count x : Int) =
        ((inSetDeps m x).count v : Int) := by
      exact_mod_cast congrArg Nat.cast (count_dependentsOf hkeys hvK x)
    have hdval : deg x = (((inSetDeps m x).length : Int)) -
        (((inSetDeps m x).filter (fun e => decide (e ∈ res))).length :
          Int) := by
      rw [hdeg x, decCount_eq_filter hkeys hndres hresk, initDegree,
        if_pos hxk]
    have hle := filter_count_le hvnres (inSetDeps m x)
    have hone := mem_or_of_filter_count hvnres (inSetDeps m x)
      (by omega) d hd
    rcases hone with h | h
    · exact List.mem_append.mpr (Or.inl h)
    · subst h
      simp
  -- nothing in ps is already in res, equals v, or is in the queue
  have hpsfresh : ∀ x ∈ ps, x ∉ res ∧ x ≠ v ∧ x ∉ queue := by
    intro x hx
    have h1 := (hpsmem x).mp hx
    have hxk : x ∈ keysOf m := hpskey x hx
    refine ⟨?_, ?_, ?_⟩
    · intro hxr
      have := deg_eq_zero_of_deps_subset hkeys hndres hresk hdeg hxk
        (topoRes_mem_subset htopo hxr)
      omega
    · intro hxv
      subst hxv
      have := deg_eq_zero_of_deps_subset hkeys hndres hresk hdeg hxk
        hvdeps
      omega
    · intro hxq
      have := deg_eq_zero_of_deps_subset hkeys hndres hresk hdeg hxk
        (hqdeps x (by simp [hxq]))
      omega
  refine ⟨?_, ?_, ?_, ?_, ?_, ?_⟩
  · -- Nodup ((res ++ [v]) ++ (queue ++ ps))
    rw [hq2]
    have hassoc : (res ++ [v]) ++ (queue ++ ps) =
        ((res ++ [v]) ++ queue) ++ ps := by simp
    rw [hassoc, List.nodup_append]
    have hbase : ((res ++ [v]) ++ queue).Nodup := by
      have heq : (res ++ [v]) ++ queue = res ++ v :: queue := by simp
      rw [heq]
      exact hnd
    refine ⟨hbase, hpsnd, ?_⟩
    intro a ha haps
    obtain ⟨hf1, hf2, hf3⟩ := hpsfresh a haps
    rcases List.mem_append.mp ha with ha' | ha'
    · rcases List.mem_append.mp ha' with ha'' | ha''
      · exact hf1 ha''
      · exact hf2 (by simpa using ha'')
    · exact hf3 ha'
  · -- all members are keys
    rw [hq2]
    intro x hx
    rcases List.mem_append.mp hx with hx' | hx'
    · rcases List.mem_append.mp hx' with hx'' | hx''
      · exact hresk x hx''
      · have : x = v := by simpa using hx''
        subst this
        exact hvK
    · rcases List.mem_append.mp hx' with hx'' | hx''
      · exact hmemK x (by simp [hx''])
      · exact hpskey x hx''
  · -- degree bookkeeping
    intro x
    rw [hdeg2 x, hdeg x]
    have hdc : decCount m (res ++ [v]) x =
        decCount m res x + (dependentsOf m v).count x := by
      unfold decCount
      rw [List.map_append, List.sum_append]
      simp
    rw [hdc]
    push_cast
    ring
  · -- queue members have their dependencies completed
    rw [hq2]
    intro x hx d hd
    rcases List.mem_append.mp hx with hx' | hx'
    · exact List.mem_append.mpr (Or.inl (hqdeps x (by simp [hx']) d hd))
    · exact hpsdeps x hx' d hd
  · exact topoRes_concat htopo hvdeps
  · -- zero-degree keys are accounted for
    intro x hxk h0
    rw [hdeg2 x] at h0
    rw [hq2]
    by_cases hc : (dependentsOf m v).count x = 0
    · have hdx : deg x = 0 := by omega
      have := hzero x hxk hdx
      rcases List.mem_append.mp this with hx' | hx'
      · exact List.mem_append.mpr (Or.inl (List.mem_append.mpr
          (Or.inl hx')))
      · rcases List.mem_cons.mp hx' with rfl | hx''
        · exact List.mem_append.mpr (Or.inl (by simp))
        · exact List.mem_append.mpr (Or.inr (by simp [hx'']))
    · by_cases h1 : 1 ≤ deg x
      · have hxps : x ∈ ps := (hpsmem x).mpr ⟨h1, by omega⟩
        exact List.mem_append.mpr (Or.inr (by simp [hxps]))
      · exfalso
        omega

theorem kahnInv_init {m : NodeMap} (hkeys : (keysOf m).Nodup) :
    KahnInv m ((keysOf m).filter (fun n => decide (initDegree m n = 0)))
      [] (initDegree m) := by
  refine ⟨?_, ?_, ?_, ?_, ?_, ?_⟩
  · simpa using hkeys.filter _
  · intro x hx
    simp only [List.nil_append] at hx
    exact List.mem_of_mem_filter hx
  · intro x
    simp [decCount]
  · intro x hx d hd
    have h1 := List.of_mem_filter hx
    have hx0 : initDegree m x = 0 := by simpa using h1
    have hxk : x ∈ keysOf m := List.mem_of_mem_filter hx
    rw [initDegree, if_pos hxk] at hx0
    have hlen : (inSetDeps m x).length = 0 := by exact_mod_cast hx0
    rw [List.eq_nil_of_length_eq_zero hlen] at hd
    simp at hd
  · intro pre n post h
    exact absurd h (by simp)
  · intro x hxk h0
    simp only [List.nil_append]
    exact List.mem_filter.mpr ⟨hxk, by simpa using h0⟩

theorem kahnRun_spec {m : NodeMap} (hkeys : (keysOf m).Nodup) :
    ∀ (fuel : Nat) (queue : List String) (deg : String → Int)
      (res : List String), KahnInv m queue res deg →
    (∃ degF, KahnInv m (kahnRun m fuel queue deg res).2
      (kahnRun m fuel queue deg res).1 degF) ∧
    ((keysOf m).length < fuel + res.length →
      (kahnRun m fuel queue deg res).2 = []) := by
  intro fuel
  induction fuel with
  | zero =>
      intro queue deg res hinv
      refine ⟨⟨deg, hinv⟩, ?_⟩
      intro hlt
      obtain ⟨hnd, hmem, _, _, _, _⟩ := hinv
      have hsub := List.subperm_of_subset hnd (fun x hx => hmem x hx)
      have hlen := hsub.length_le
      rw [List.length_append] at hlen
      have hq0 : queue.length = 0 := by omega
      exact List.eq_nil_of_length_eq_zero hq0
  | succ fuel ih =>
      intro queue deg res hinv
      match queue with
      | [] => exact ⟨⟨deg, hinv⟩, fun _ => rfl⟩
      | v :: queue' =>
          have hstep := kahnInv_step hkeys hinv
          have hrec := ih _ _ _ hstep
          refine ⟨hrec.1, ?_⟩
          intro hlt
          refine hrec.2 ?_
          rw [List.length_append]
          simp only [List.length_cons] at hlt ⊢
          omega

theorem keysOf_length (m : NodeMap) : (keysOf m).length = m.length :=
  List.length_map m Prod.fst

theorem kahn_sound {m : NodeMap} (hkeys : (keysOf m).Nodup)
    {order : List String} (h : topologicalSort m = .ok order) :
    order.Perm (keysOf m) ∧ TopoRes m order := by
  unfold topologicalSort at h
  by_cases hc : (kahnResult m).1.length = m.length
  · rw [if_pos hc] at h
    have horder : order = (kahnResult m).1 := by
      injection h with h2
      exact h2.symm
    subst horder
    obtain ⟨⟨degF, hfin⟩, _⟩ := kahnRun_spec hkeys (m.length + 1)
      ((keysOf m).filter (fun n => decide (initDegree m n = 0)))
      (initDegree m) [] (kahnInv_init hkeys)
    rw [show kahnRun m (m.length + 1)
        ((keysOf m).filter (fun n => decide (initDegree m n = 0)))
        (initDegree m) [] = kahnResult m from rfl] at hfin
    obtain ⟨hnd, hmem, _, _, htopo, _⟩ := hfin
    have hndres := (List.nodup_append.mp hnd).1
    have hsubres : (kahnResult m).1 ⊆ keysOf m := fun x hx =>
      hmem x (List.mem_append.mpr (Or.inl hx))
    have hsp := List.subperm_of_subset hndres hsubres
    constructor
    · refine hsp.perm_of_length_le ?_
      rw [keysOf_length, hc]
    · exact htopo
  · rw [if_neg hc] at h
    exact absurd h (by simp)

/-! ## Acyclicity from a topological enumeration -/

theorem indexOf_lt_of_split {order pre post : List String} {a b : String}
    (hnd : order.Nodup) (hsplit : order = pre ++ a :: post)
    (hb : b ∈ pre) : order.indexOf b < order.indexOf a := by
  subst hsplit
  have hanp : a ∉ pre := by
    intro hap
    rcases List.nodup_append.mp hnd with ⟨_, _, hdisj⟩
    exact hdisj hap (by simp)
  rw [List.indexOf_append_of_mem hb, List.indexOf_append_of_not_mem hanp]
  have h1 : List.indexOf b pre < pre.length :=
    List.indexOf_lt_length.mpr hb
  have h2 : List.indexOf a (a :: post) = 0 := by simp
  omega

theorem transGen_indexOf_lt {m : NodeMap} {order : List String}
    (hnd : order.Nodup) (hperm : order.Perm (keysOf m))
    (htopo : TopoRes m order) {x y : String}
    (h : Relation.TransGen (DepOn m) x y) :
    order.indexOf y < order.indexOf x := by
  induction h with
  | single hdep =>
      rename_i b
      obtain ⟨hxk, hbk, hbdep⟩ := hdep
      have hxo : x ∈ order := hperm.symm.subset hxk
      obtain ⟨pre, post, hsplit⟩ := List.append_of_mem hxo
      have hb : b ∈ pre := htopo pre x post hsplit b
        (List.mem_filter.mpr ⟨hbdep, by simpa using hbk⟩)
      exact indexOf_lt_of_split hnd hsplit hb
  | tail hxb hdep ih =>
      rename_i b c
      obtain ⟨hbk, hck, hcdep⟩ := hdep
      have hbo : b ∈ order := hperm.symm.subset hbk
      obtain ⟨pre, post, hsplit⟩ := List.append_of_mem hbo
      have hc : c ∈ pre := htopo pre b post hsplit c
        (List.mem_filter.mpr ⟨hcdep, by simpa using hck⟩)
      have := indexOf_lt_of_split hnd hsplit hc
      omega

theorem acyclic_of_topo {m : NodeMap} {order : List String}
    (hnd : order.Nodup) (hperm : order.Perm (keysOf m))
    (htopo : TopoRes m order) : Acyclic m := by
  intro x hx
  have := transGen_indexOf_lt hnd hperm htopo hx
  omega

/-- Acyclicity of a dependency map is certified by a successful
`topologicalSort`; used to discharge `Acyclic` on concrete graphs. -/
theorem acyclic_of_sort_ok {m : NodeMap} (hkeys : (keysOf m).Nodup)
    {order : List String} (h : topologicalSort m = .ok order) :
    Acyclic m := by
  obtain ⟨hperm, htopo⟩ := kahn_sound hkeys h
  exact acyclic_of_topo (hperm.nodup_iff.mpr hkeys) hperm htopo

/-! ## Progress: an acyclic graph always has a ready node -/

theorem no_self_feeding_set {m : NodeMap} (hacyc : Acyclic m)
    {S : List String} (hne : S ≠ [])
    (hS : ∀ x ∈ S, x ∈ keysOf m)
    (hstep : ∀ x ∈ S, ∃ d, d ∈ inSetDeps m x ∧ d ∈ S) : False := by
  haveI hfin : Finite {x : String // x ∈ keysOf m} :=
    (List.finite_toSet (keysOf m)).to_subtype
  let r : {x : String // x ∈ keysOf m} → {x : String // x ∈ keysOf m} →
      Prop := fun a b => Relation.TransGen (DepOn m) b.1 a.1
  haveI : IsTrans _ r :=
    ⟨fun _ _ _ hab hbc => Relation.TransGen.trans hbc hab⟩
  haveI : IsIrrefl _ r := ⟨fun a h => hacyc a.1 h⟩
  have hwf := Finite.wellFounded_of_trans_of_irrefl r
  obtain ⟨x0, hx0⟩ := List.exists_mem_of_ne_nil S hne
  obtain ⟨mn, hmnS, hmin⟩ := hwf.has_min {a | a.1 ∈ S}
    ⟨⟨x0, hS x0 hx0⟩, hx0⟩
  obtain ⟨d, hd, hdS⟩ := hstep mn.1 hmnS
  refine hmin ⟨d, hS d hdS⟩ hdS ?_
  exact Relation.TransGen.single
    ⟨hS mn.1 hmnS, inSetDeps_subset_keys hd, List.mem_of_mem_filter hd⟩

theorem kahn_complete {m : NodeMap} (hkeys : (keysOf m).Nodup)
    (hacyc : Acyclic m) : (kahnResult m).1.length = m.length := by
  obtain ⟨⟨degF, hfin⟩, hdrain⟩ := kahnRun_spec hkeys (m.length + 1)
    ((keysOf m).filter (fun n => decide (initDegree m n = 0)))
    (initDegree m) [] (kahnInv_init hkeys)
  rw [show kahnRun m (m.length + 1)
      ((keysOf m).filter (fun n => decide (initDegree m n = 0)))
      (initDegree m) [] = kahnResult m from rfl] at hfin hdrain
  have hq : (kahnResult m).2 = [] := hdrain (by
    rw [keysOf_length]
    simp)
  rw [hq] at hfin
  obtain ⟨hnd, hmem, hdeg, _, htopo, hzero⟩ := hfin
  simp only [List.append_nil] at hnd hmem hzero
  by_contra hne
  -- some key is missing from the result
  have hsub : (kahnResult m).1 ⊆ keysOf m := fun x hx => hmem x hx
  have hlen : (kahnResult m).1.length ≤ (keysOf m).length :=
    (List.subperm_of_subset hnd hsub).length_le
  rw [keysOf_length] at hlen
  -- the set of missing keys feeds itself, contradicting acyclicity
  refine no_self_feeding_set hacyc (S :=
    (keysOf m).filter (fun k => decide (k ∉ (kahnResult m).1)))
    ?_ (fun x hx => List.mem_of_mem_filter hx) ?_
  · intro hSe
    have hall : ∀ k ∈ keysOf m, k ∈ (kahnResult m).1 := by
      intro k hk
      by_contra hknot
      have : k ∈ (keysOf m).filter
          (fun k => decide (k ∉ (kahnResult m).1)) :=
        List.mem_filter.mpr ⟨hk, by simpa using hknot⟩
      rw [hSe] at this
      simp at this
    have := (List.subperm_of_subset hkeys hall).length_le
    rw [keysOf_length] at this
    omega
  · intro x hx
    have hxk : x ∈ keysOf m := List.mem_of_mem_filter hx
    have hxnot : x ∉ (kahnResult m).1 := by
      have := List.of_mem_filter hx
      simpa using this
    by_contra hnod
    push_neg at hnod
    have hsubdeps : ∀ d ∈ inSetDeps m x, d ∈ (kahnResult m).1 := by
      intro d hd
      by_contra hdnot
      exact hnod d hd (List.mem_filter.mpr
        ⟨inSetDeps_subset_keys hd, by simpa using hdnot⟩)
    have h0 := deg_eq_zero_of_deps_subset hkeys hnd hsub hdeg hxk
      hsubdeps
    exact hxnot (hzero x hxk h0)

/-! ## Parallel levels -/

theorem validLevels_nil (m : NodeMap) : ValidLevels m [] := by
  intro i hi
  simp at hi

theorem validLevels_append_single {m : NodeMap}
    {acc : List (List String)} {L : List String}
    (h : ValidLevels m acc)
    (hL : ∀ t ∈ L, ∀ d ∈ getDeps m t, d ∈ keysOf m → d ∈ acc.flatten) :
    ValidLevels m (acc ++ [L]) := by
  intro i hi t ht d hd hdk
  rw [List.length_append, List.length_cons, List.length_nil] at hi
  by_cases hix : i < acc.length
  · rw [List.getD_append _ _ _ _ hix] at ht
    rw [List.take_append_of_le_length (le_of_lt hix)]
    exact h i hix t ht d hd hdk
  · have hieq : i = acc.length := by omega
    subst hieq
    rw [show acc ++ [L] = acc ++ L :: [] from rfl,
      getD_append_cons] at ht
    rw [List.take_append_of_le_length (le_refl _), List.take_length]
    exact hL t ht d hd hdk

theorem levelsRun_spec {m : NodeMap} (hkeys : (keysOf m).Nodup)
    (hacyc : Acyclic m) :
    ∀ (fuel : Nat) (completed remaining : List String)
      (acc : List (List String)),
    (completed ++ remaining).Perm (keysOf m) →
    acc.flatten = completed →
    ValidLevels m acc →
    remaining.length < fuel →
    ∃ levels, levelsRun m fuel completed remaining acc = .ok levels ∧
      levels.flatten.Perm (keysOf m) ∧ ValidLevels m levels := by
  intro fuel
  induction fuel with
  | zero =>
      intro _ _ _ _ _ _ hlt
      omega
  | succ fuel ih =>
      intro completed remaining acc hperm hflat hvalid hlt
      by_cases hrem : remaining.isEmpty
      · have hre : remaining = [] := by simpa using hrem
        subst hre
        refine ⟨acc, ?_, ?_, hvalid⟩
        · simp [levelsRun]
        · rw [hflat]
          simpa using hperm
      · set p : String → Bool := fun n =>
          (getDeps m n).all fun d =>
            decide (d ∉ keysOf m) || decide (d ∈ completed) with hp
        set L := remaining.filter p with hL
        have hremsub : ∀ x ∈ remaining, x ∈ keysOf m := fun x hx =>
          hperm.subset (List.mem_append.mpr (Or.inr hx))
        by_cases hLe : L.isEmpty
        · exfalso
          have hLnil : remaining.filter p = [] := by
            rw [← hL]
            exact List.isEmpty_iff.mp hLe
          refine no_self_feeding_set hacyc
            (S := remaining) (by simpa using hrem) hremsub ?_
          intro x hx
          have hxp : p x = false := by
            by_contra hpx
            have : x ∈ remaining.filter p :=
              List.mem_filter.mpr ⟨hx, by simpa using hpx⟩
            rw [hLnil] at this
            simp at this
          rw [hp] at hxp
          simp only [List.all_eq_true, not_forall] at hxp
          have hxp2 : ¬ ∀ d ∈ getDeps m x,
              (decide (d ∉ keysOf m) || decide (d ∈ completed)) = true := by
            simpa using hxp
          push_neg at hxp2
          obtain ⟨d, hd, hdfail⟩ := hxp2
          have hdk : d ∈ keysOf m := by
            by_contra hdk
            exact hdfail (by simp [hdk])
          have hdc : d ∉ completed := by
            intro hdc
            exact hdfail (by simp [hdc])
          have hdrem : d ∈ remaining := by
            rcases List.mem_append.mp (hperm.symm.subset hdk) with h | h
            · exact absurd h hdc
            · exact h
          exact ⟨d, List.mem_filter.mpr ⟨hd, by simpa using hdk⟩, hdrem⟩
        · -- a non-empty level: recurse
          have hLne : L ≠ [] := by simpa [List.isEmpty_iff] using hLe
          obtain ⟨x0, hx0⟩ := List.exists_mem_of_ne_nil L hLne
          have hx0r : x0 ∈ remaining := List.mem_of_mem_filter hx0
          have hfilter_eq : remaining.filter (fun n => decide (n ∉ L)) =
              remaining.filter (fun n => !p n) := by
            refine List.filter_congr ?_
            intro x hx
            by_cases hpx : p x = true
            · have : x ∈ L := List.mem_filter.mpr ⟨hx, hpx⟩
              simp [this, hpx]
            · have hnl : x ∉ L := fun hxl => hpx (List.of_mem_filter hxl)
              have hpf : p x = false := by simpa using hpx
              simp [hnl, hpf]
          have hLperm : (L ++ remaining.filter (fun n => decide (n ∉ L))).Perm
              remaining := by
            rw [hfilter_eq, hL]
            exact List.filter_append_perm p remaining
          have hlen2 : (remaining.filter (fun n => decide (n ∉ L))).length <
              remaining.length := by
            refine List.length_filter_lt_length_iff_exists.mpr ?_
            exact ⟨x0, hx0r, by simp [hx0]⟩
          have hstep := ih (completed ++ L)
            (remaining.filter (fun n => decide (n ∉ L))) (acc ++ [L])
            (by
              rw [List.append_assoc]
              exact (hLperm.append_left completed).trans hperm)
            (by simp [hflat])
            (validLevels_append_single hvalid (by
              intro t ht d hd hdk
              have hpt := List.of_mem_filter ht
              rw [hp] at hpt
              have hall := List.all_eq_true.mp hpt d hd
              have hor : d ∉ keysOf m ∨ d ∈ completed := by
                simpa using hall
              rw [hflat]
              rcases hor with h | h
              · exact absurd hdk h
              · exact h))
            (by omega)
          obtain ⟨levels, hrun, hlperm, hlvalid⟩ := hstep
          refine ⟨levels, ?_, hlperm, hlvalid⟩
          simp only [levelsRun]
          rw [← hp, ← hL, if_neg hrem, if_neg (by
            rw [List.isEmpty_iff]
            exact fun h2 => hLe (by rw [h2]; rfl))]
          exact hrun

theorem getParallelLevels_spec {m : NodeMap}
    (hkeys : (keysOf m).Nodup) (hacyc : Acyclic m) :
    ∃ levels, getParallelLevels m = .ok levels ∧
      levels.flatten.Perm (keysOf m) ∧ ValidLevels m levels := by
  refine levelsRun_spec hkeys hacyc (m.length + 1) [] (keysOf m) []
    (by simp) rfl (validLevels_nil m) ?_
  rw [keysOf_length]
  omega

/-! ## DAG soundness (C1) -/

/-- C1: for every acyclic dependency map (with the `Map` invariant of
distinct keys), graph construction succeeds, `executionOrder` is a
topological order enumerating exactly the node set (every in-set dependency
of a task precedes the task; dependencies outside the node set are
ignored), and `parallelLevels` is a partition of the task set in which
every task of level `k` depends only on tasks in levels `< k`. -/
theorem claim1_dag_soundness (m : NodeMap) (hkeys : (keysOf m).Nodup)
    (hacyc : Acyclic m) :
    ∃ order levels, buildGraphCore m = .ok (order, levels) ∧
      order.Perm (keysOf m) ∧
      (∀ pre n post, order = pre ++ n :: post →
        ∀ d ∈ getDeps m n, d ∈ keysOf m → d ∈ pre) ∧
      levels.flatten.Perm (keysOf m) ∧
      ValidLevels m levels := by
  have hlen := kahn_complete hkeys hacyc
  have hsort : topologicalSort m = .ok (kahnResult m).1 := by
    unfold topologicalSort
    rw [if_pos hlen]
  obtain ⟨hperm, htopo⟩ := kahn_sound hkeys hsort
  obtain ⟨levels, hlev, hlperm, hlvalid⟩ :=
    getParallelLevels_spec hkeys hacyc
  refine ⟨(kahnResult m).1, levels, ?_, hperm, ?_, hlperm, hlvalid⟩
  · unfold buildGraphCore
    rw [hsort, hlev]
    rfl
  · intro pre n post hsplit d hd hdk
    exact htopo pre n post hsplit d
      (List.mem_filter.mpr ⟨hd, by simpa using hdk⟩)

/-- C1 witness: the theorem applied to the two-node chain `b → a`,
acyclicity being certified by the sorter's own success. -/
theorem claim1_dag_soundness_witness :
    ∃ order levels,
      buildGraphCore [("a", []), ("b", ["a"])] = .ok (order, levels) ∧
      order.Perm (keysOf [("a", []), ("b", ["a"])]) ∧
      (∀ pre n post, order = pre ++ n :: post →
        ∀ d ∈ getDeps [("a", []), ("b", ["a"])] n,
          d ∈ keysOf [("a", []), ("b", ["a"])] → d ∈ pre) ∧
      levels.flatten.Perm (keysOf [("a", []), ("b", ["a"])]) ∧
      ValidLevels [("a", []), ("b", ["a"])] levels :=
  claim1_dag_soundness _ (by decide)
    (acyclic_of_sort_ok (by decide)
      (show topologicalSort [("a", []), ("b", ["a"])] = .ok ["a", "b"]
        from rfl))

/-! ## The DFS cycle witness -/

theorem dfsVisit_zero (m : NodeMap) (n : String) (st : DfsState) :
    dfsVisit m 0 n st = none := rfl

theorem dfsVisit_succ (m : NodeMap) (fuel : Nat) (n : String)
    (st : DfsState) :
    dfsVisit m (fuel + 1) n st =
      match dfsDepsF m (dfsVisit m fuel) (getDeps m n)
          ⟨st.visited ++ [n], st.recStack ++ [n], st.path ++ [n]⟩ with
      | none => none
      | some (st2, some c) => some (st2, some c)
      | some (st2, none) =>
          some (⟨st2.visited, st2.recStack.erase n, st2.path.dropLast⟩,
            none) := rfl

theorem filter_length_mono {p q : String → Bool}
    (h : ∀ x, p x = true → q x = true) :
    ∀ (l : List String), (l.filter p).length ≤ (l.filter q).length := by
  intro l
  induction l with
  | nil => simp
  | cons a tl ih =>
      rw [List.filter_cons, List.filter_cons]
      by_cases hp : p a = true
      · rw [if_pos hp, if_pos (h a hp)]
        simpa using ih
      · rw [if_neg (by simpa using hp)]
        by_cases hq : q a = true
        · rw [if_pos hq]
          exact le_trans ih (by simp)
        · rw [if_neg (by simpa using hq)]
          exact ih

theorem unvisited_mono {m : NodeMap} {st st' : DfsState}
    (h : st.visited ⊆ st'.visited) :
    unvisitedCount m st' ≤ unvisitedCount m st := by
  unfold unvisitedCount
  refine filter_length_mono ?_ (keysOf m)
  intro x hx
  simp only [decide_eq_true_eq] at hx ⊢
  exact fun hxv => hx (h hxv)

theorem unvisited_pos {m : NodeMap} {st : DfsState} {n : String}
    (hk : n ∈ keysOf m) (hnv : n ∉ st.visited) :
    1 ≤ unvisitedCount m st := by
  unfold unvisitedCount
  have : n ∈ (keysOf m).filter (fun k => decide (k ∉ st.visited)) :=
    List.mem_filter.mpr ⟨hk, by simpa using hnv⟩
  exact List.length_pos.mpr (List.ne_nil_of_mem this)

theorem unvisited_mark_aux {vis : List String} {n : String}
    (hnv : n ∉ vis) :
    ∀ (l : List String), l.Nodup → n ∈ l →
    (l.filter (fun k => decide (k ∉ vis ++ [n]))).length + 1 =
      (l.filter (fun k => decide (k ∉ vis))).length := by
  intro l
  induction l with
  | nil => intro _ h; simp at h
  | cons a tl ih =>
      intro hnd hmem
      obtain ⟨hatl, hndtl⟩ := List.nodup_cons.mp hnd
      rw [List.filter_cons, List.filter_cons]
      by_cases han : a = n
      · subst han
        have hfeq : tl.filter (fun k => decide (k ∉ vis ++ [a])) =
            tl.filter (fun k => decide (k ∉ vis)) := by
          refine List.filter_congr ?_
          intro x hx
          have hxa : x ≠ a := fun he => hatl (he ▸ hx)
          simp only [decide_eq_decide, List.mem_append,
            List.mem_singleton]
          constructor
          · intro hx2 hx3
            exact hx2 (Or.inl hx3)
          · intro hx2 hx3
            rcases hx3 with h3 | h3
            · exact hx2 h3
            · exact hxa h3
        rw [if_neg (by simp), if_pos (by simpa using hnv), hfeq,
          List.length_cons]
      · have hntl : n ∈ tl := by
          rcases List.mem_cons.mp hmem with h | h
          · exact absurd h.symm han
          · exact h
        have hcond : (decide (a ∉ vis ++ [n])) = (decide (a ∉ vis)) := by
          simp only [decide_eq_decide, List.mem_append,
            List.mem_singleton]
          constructor
          · intro h2 h3
            exact h2 (Or.inl h3)
          · intro h2 h3
            rcases h3 with h3 | h3
            · exact h2 h3
            · exact han h3
        rw [hcond]
        by_cases hav : a ∉ vis
        · rw [if_pos (by simpa using hav), if_pos (by simpa using hav),
            List.length_cons, List.length_cons]
          have := ih hndtl hntl
          omega
        · rw [if_neg (by simpa using hav), if_neg (by simpa using hav)]
          exact ih hndtl hntl

theorem unvisited_mark {m : NodeMap} (hkeys : (keysOf m).Nodup)
    {st : DfsState} {n : String} (hk : n ∈ keysOf m)
    (hnv : n ∉ st.visited) (rs ps : List String) :
    unvisitedCount m ⟨st.visited ++ [n], rs, ps⟩ + 1 =
      unvisitedCount m st :=
  unvisited_mark_aux hnv (keysOf m) hkeys hk

theorem validCycle_of_backedge {m : NodeMap} {path : List String}
    {d n : String} (hchain : List.Chain' (DepOn m) path)
    (hlast : path.getLast? = some n) (hd : d ∈ path)
    (hedge : DepOn m n d) :
    ValidCycle m (path.drop (path.indexOf d) ++ [d]) := by
  have hi : path.indexOf d < path.length :=
    List.indexOf_lt_length.mpr hd
  have hdropne : path.drop (path.indexOf d) ≠ [] := by
    intro h
    have := List.length_drop (path.indexOf d) path
    rw [h] at this
    simp at this
    omega
  have hhead : (path.drop (path.indexOf d)).head? = some d := by
    rw [List.head?_drop]
    rw [List.getElem?_eq_getElem hi]
    rw [List.getElem_indexOf hi]
  have hlastdrop : (path.drop (path.indexOf d)).getLast? = some n := by
    rw [← hlast]
    conv_rhs => rw [← List.take_append_drop (path.indexOf d) path]
    rw [List.getLast?_append_of_ne_nil _ hdropne]
  refine ⟨?_, ?_, ?_⟩
  · rw [List.length_append, List.length_drop]
    simp only [List.length_cons, List.length_nil]
    omega
  · rw [List.getLast?_concat]
    rw [List.head?_append, hhead]
    rfl
  · refine List.chain'_append.mpr ⟨hchain.drop _, List.chain'_singleton d, ?_⟩
    intro x hx y hy
    have hxn : x = n := by
      rw [Option.mem_def, hlastdrop] at hx
      exact (Option.some_inj.mp hx).symm
    have hyd : d = y := by
      rw [Option.mem_def] at hy
      simpa using hy
    rw [hxn, ← hyd]
    exact hedge

theorem dfsDeps_spec_of_visit {m : NodeMap} {fuel : Nat}
    (hv : DfsVisitSpec m fuel) : DfsDepsSpec m fuel := by
  intro ds
  induction ds with
  | nil =>
      intro st ncur hst hlast hds
      refine ⟨?_, ?_, ?_⟩
      · intro _ h
        simp [dfsDepsF] at h
      · intro st' c h
        simp [dfsDepsF] at h
      · intro st' h
        simp only [dfsDepsF, Option.some_inj, Prod.mk.injEq] at h
        obtain ⟨rfl, -⟩ := h
        exact ⟨rfl, rfl, fun x hx => hx, hst, by simp⟩
  | cons d rest ih =>
      intro st ncur hst hlast hds
      have hsi := hst
      obtain ⟨si1, si2, si3, si4, si5, si6⟩ := hsi
      have hncurk : ncur ∈ keysOf m :=
        si5 ncur (si3 ncur (List.mem_of_getLast?_eq_some hlast))
      by_cases hk : d ∈ keysOf m
      · by_cases hnv : d ∉ st.visited
        · -- unvisited dependency: recurse into it
          have hlink : ∀ p, st.path.getLast? = some p → DepOn m p d := by
            intro p hp
            rw [hlast] at hp
            injection hp with hp
            subst hp
            exact ⟨hncurk, hk, hds d (by simp)⟩
          have hvisit := hv d st hst hk (by simpa using hnv) hlink
          rcases hE : dfsVisit m fuel d st with _ | ⟨st1, copt⟩
          · have hres : dfsDepsF m (dfsVisit m fuel) (d :: rest) st =
                none := by
              simp only [dfsDepsF]
              rw [if_pos hk, if_pos hnv, hE]
            refine ⟨?_, ?_, ?_⟩
            · intro hfuel _
              exact hvisit.1 hfuel hE
            · intro st' c h
              rw [hres] at h
              simp at h
            · intro st' h
              rw [hres] at h
              simp at h
          · rcases copt with _ | c
            · -- the visit finished cleanly: continue with the rest
              obtain ⟨hp1, hr1, hv1, hd1, hst1⟩ := hvisit.2.2 st1 hE
              have hrec := ih st1 ncur hst1 (by rw [hp1]; exact hlast)
                (fun d2 hd2 => hds d2 (by simp [hd2]))
              have hres : dfsDepsF m (dfsVisit m fuel) (d :: rest) st =
                  dfsDepsF m (dfsVisit m fuel) rest st1 := by
                simp only [dfsDepsF]
                rw [if_pos hk, if_pos hnv, hE]
              refine ⟨?_, ?_, ?_⟩
              · intro hfuel
                rw [hres]
                exact hrec.1 (le_trans (unvisited_mono hv1) hfuel)
              · intro st' c h
                rw [hres] at h
                exact hrec.2.1 st' c h
              · intro st' h
                rw [hres] at h
                obtain ⟨hp2, hr2, hv2, hst2, hblack⟩ := hrec.2.2 st' h
                refine ⟨by rw [hp2, hp1], by rw [hr2, hr1],
                  fun x hx => hv2 (hv1 hx), hst2, ?_⟩
                intro d2 hd2 hd2k
                rcases List.mem_cons.mp hd2 with rfl | hd2'
                · refine ⟨hv2 hd1, ?_⟩
                  rw [hr2, hr1]
                  intro hdr
                  exact hnv (si3 d2 ((si1 d2).mp hdr))
                · exact hblack d2 hd2' hd2k
            · -- the nested visit found a cycle
              have hres : dfsDepsF m (dfsVisit m fuel) (d :: rest) st =
                  some (st1, some c) := by
                simp only [dfsDepsF]
                rw [if_pos hk, if_pos hnv, hE]
              refine ⟨?_, ?_, ?_⟩
              · intro _
                rw [hres]
                simp
              · intro st' c' h
                rw [hres] at h
                simp only [Option.some_inj, Prod.mk.injEq,
                  Option.some.injEq] at h
                obtain ⟨-, hc⟩ := h
                exact hc ▸ hvisit.2.1 st1 c hE
              · intro st' h
                rw [hres] at h
                simp at h
        · -- d already visited
          have hv2 : d ∈ st.visited := by
            by_contra hx
            exact hnv hx
          by_cases hrs : d ∈ st.recStack
          · -- back-edge: report the cycle
            have hres : dfsDepsF m (dfsVisit m fuel) (d :: rest) st =
                some (st, some (st.path.drop (st.path.indexOf d) ++ [d])) := by
              simp only [dfsDepsF]
              rw [if_pos hk, if_neg hnv, if_pos hrs]
            refine ⟨?_, ?_, ?_⟩
            · intro _
              rw [hres]
              simp
            · intro st' c h
              rw [hres] at h
              simp only [Option.some_inj, Prod.mk.injEq,
                Option.some.injEq] at h
              obtain ⟨-, hc⟩ := h
              exact hc ▸ validCycle_of_backedge si4 hlast
                ((si1 d).mp hrs) ⟨hncurk, hk, hds d (by simp)⟩
            · intro st' h
              rw [hres] at h
              simp at h
          · -- d is black: skip it
            have hrec := ih st ncur hst hlast
              (fun d2 hd2 => hds d2 (by simp [hd2]))
            have hres : dfsDepsF m (dfsVisit m fuel) (d :: rest) st =
                dfsDepsF m (dfsVisit m fuel) rest st := by
              simp only [dfsDepsF]
              rw [if_pos hk, if_neg hnv, if_neg hrs]
            refine ⟨?_, ?_, ?_⟩
            · intro hfuel
              rw [hres]
              exact hrec.1 hfuel
            · intro st' c h
              rw [hres] at h
              exact hrec.2.1 st' c h
            · intro st' h
              rw [hres] at h
              obtain ⟨hp2, hr2, hvs2, hst2, hblack⟩ := hrec.2.2 st' h
              refine ⟨hp2, hr2, hvs2, hst2, ?_⟩
              intro d2 hd2 hd2k
              rcases List.mem_cons.mp hd2 with rfl | hd2'
              · exact ⟨hvs2 hv2, by rw [hr2]; exact hrs⟩
              · exact hblack d2 hd2' hd2k
      · -- dependency outside the node set: skipped
        have hrec := ih st ncur hst hlast
          (fun d2 hd2 => hds d2 (by simp [hd2]))
        have hres : dfsDepsF m (dfsVisit m fuel) (d :: rest) st =
            dfsDepsF m (dfsVisit m fuel) rest st := by
          simp only [dfsDepsF]
          rw [if_neg hk]
        refine ⟨?_, ?_, ?_⟩
        · intro hfuel
          rw [hres]
          exact hrec.1 hfuel
        · intro st' c h
          rw [hres] at h
          exact hrec.2.1 st' c h
        · intro st' h
          rw [hres] at h
          obtain ⟨hp2, hr2, hvs2, hst2, hblack⟩ := hrec.2.2 st' h
          refine ⟨hp2, hr2, hvs2, hst2, ?_⟩
          intro d2 hd2 hd2k
          rcases List.mem_cons.mp hd2 with rfl | hd2'
          · exact absurd hd2k hk
          · exact hblack d2 hd2' hd2k

theorem dfsVisit_spec_zero (m : NodeMap) : DfsVisitSpec m 0 := by
  intro n st _ hk hnv _
  refine ⟨?_, ?_, ?_⟩
  · intro hfuel
    have h1 := unvisited_pos hk hnv
    exact absurd hfuel (by omega)
  · intro st' c h
    rw [dfsVisit_zero] at h
    simp at h
  · intro st' h
    rw [dfsVisit_zero] at h
    simp at h

theorem dfsVisit_spec_succ {m : NodeMap} (hkeys : (keysOf m).Nodup)
    {fuel : Nat} (hd : DfsDepsSpec m fuel) : DfsVisitSpec m (fuel + 1) := by
  intro n st hst hk hnv hlink
  obtain ⟨si1, si2, si3, si4, si5, si6⟩ := hst
  set st1 : DfsState :=
    ⟨st.visited ++ [n], st.recStack ++ [n], st.path ++ [n]⟩ with hst1def
  have hnpath : n ∉ st.path := fun h => hnv (si3 n h)
  have hnrec : n ∉ st.recStack := fun h => hnpath ((si1 n).mp h)
  have hst1 : StInv m st1 := by
    refine ⟨?_, ?_, ?_, ?_, ?_, ?_⟩
    · intro x
      simp only [hst1def, List.mem_append, List.mem_singleton]
      rw [si1 x]
    · simp only [hst1def]
      refine List.nodup_append.mpr ⟨si2, List.nodup_singleton n, ?_⟩
      intro a ha han
      have : a = n := by simpa using han
      exact hnpath (this ▸ ha)
    · intro x hx
      simp only [hst1def, List.mem_append, List.mem_singleton] at hx ⊢
      rcases hx with h | h
      · exact Or.inl (si3 x h)
      · exact Or.inr h
    · simp only [hst1def]
      refine List.chain'_append.mpr ⟨si4, List.chain'_singleton n, ?_⟩
      intro x hx y hy
      have hy' : n = y := by
        rw [Option.mem_def] at hy
        simpa using hy
      rw [← hy']
      exact hlink x (Option.mem_def.mp hx)
    · intro x hx
      simp only [hst1def, List.mem_append, List.mem_singleton] at hx
      rcases hx with h | h
      · exact si5 x h
      · exact h ▸ hk
    · obtain ⟨Lb, hLnd, hLmem, hLtopo⟩ := si6
      refine ⟨Lb, hLnd, ?_, hLtopo⟩
      intro x
      rw [hLmem x]
      simp only [hst1def, List.mem_append, List.mem_singleton]
      constructor
      · rintro ⟨hvx, hrx⟩
        refine ⟨Or.inl hvx, ?_⟩
        rintro (hc | hc)
        · exact hrx hc
        · exact hnv (hc ▸ hvx)
      · rintro ⟨hvx, hrx⟩
        have hxn : x ≠ n := fun he => hrx (Or.inr he)
        rcases hvx with h | h
        · exact ⟨h, fun hc => hrx (Or.inl hc)⟩
        · exact absurd h hxn
  have hlast1 : st1.path.getLast? = some n := by
    simp only [hst1def]
    exact List.getLast?_concat st.path
  have hdeps := hd (getDeps m n) st1 n hst1 hlast1 (fun d hd2 => hd2)
  rcases hE : dfsDepsF m (dfsVisit m fuel) (getDeps m n) st1 with
    _ | ⟨st2, copt⟩
  · -- fuel exhausted below (impossible with enough fuel)
    have hres : dfsVisit m (fuel + 1) n st = none := by
      rw [dfsVisit_succ, ← hst1def, hE]
    refine ⟨?_, ?_, ?_⟩
    · intro hfuel _
      have hmark := unvisited_mark hkeys hk hnv
        (st.recStack ++ [n]) (st.path ++ [n])
      refine hdeps.1 ?_ hE
      have : unvisitedCount m st1 + 1 = unvisitedCount m st := hmark
      omega
    · intro st' c h
      rw [hres] at h
      simp at h
    · intro st' h
      rw [hres] at h
      simp at h
  · rcases copt with _ | c
    · -- clean return: pop the node
      obtain ⟨hp2, hr2, hv2, hst2, hblack⟩ := hdeps.2.2 st2 hE
      have hres : dfsVisit m (fuel + 1) n st =
          some (⟨st2.visited, st2.recStack.erase n, st2.path.dropLast⟩,
            none) := by
        rw [dfsVisit_succ, ← hst1def, hE]
      have hp3 : st2.path.dropLast = st.path := by
        rw [hp2]
        simp only [hst1def]
        exact List.dropLast_concat
      have hr3 : st2.recStack.erase n = st.recStack := by
        rw [hr2]
        simp only [hst1def]
        rw [List.erase_append_right _ hnrec, List.erase_cons_head,
          List.append_nil]
      have hv13 : st.visited ⊆ st2.visited := by
        intro x hx
        refine hv2 ?_
        simp [hst1def, hx]
      have hn2 : n ∈ st2.visited := hv2 (by simp [hst1def])
      have hn2r : n ∈ st2.recStack := by
        rw [hr2]
        simp [hst1def]
      refine ⟨?_, ?_, ?_⟩
      · intro _
        rw [hres]
        simp
      · intro st' c h
        rw [hres] at h
        simp at h
      · intro st' h
        rw [hres] at h
        simp only [Option.some_inj, Prod.mk.injEq] at h
        obtain ⟨hst', -⟩ := h
        subst hst'
        obtain ⟨t1, t2, t3, t4, t5, t6⟩ := hst2
        refine ⟨hp3, hr3, hv13, hn2, ?_⟩
        refine ⟨?_, ?_, ?_, ?_, ?_, ?_⟩
        · intro x
          simp only [hr3, hp3]
          exact si1 x
        · simpa only [hp3] using si2
        · intro x hx
          simp only [hp3] at hx
          exact hv13 (si3 x hx)
        · simpa only [hp3] using si4
        · intro x hx
          exact t5 x hx
        · obtain ⟨Lb2, hL2nd, hL2mem, hL2topo⟩ := t6
          have hnL2 : n ∉ Lb2 := by
            intro hc
            exact ((hL2mem n).mp hc).2 hn2r
          refine ⟨Lb2 ++ [n], ?_, ?_, ?_⟩
          · refine List.nodup_append.mpr
              ⟨hL2nd, List.nodup_singleton n, ?_⟩
            intro a ha han
            have : a = n := by simpa using han
            exact hnL2 (this ▸ ha)
          · intro x
            simp only [List.mem_append, List.mem_singleton, hr3]
            by_cases hxn : x = n
            · subst hxn
              simp only [hnL2, false_or]
              constructor
              · intro _
                exact ⟨hn2, hnrec⟩
              · intro _
                trivial
            · simp only [hxn, or_false]
              rw [hL2mem x]
              have hx2r : x ∈ st2.recStack ↔ x ∈ st.recStack := by
                rw [hr2]
                simp only [hst1def, List.mem_append, List.mem_singleton]
                constructor
                · rintro (h | h)
                  · exact h
                  · exact absurd h hxn
                · exact Or.inl
              rw [hx2r]
          · refine topoRes_concat hL2topo ?_
            intro d hdmem
            have hdk : d ∈ keysOf m := inSetDeps_subset_keys hdmem
            have hdg : d ∈ getDeps m n := List.mem_of_mem_filter hdmem
            obtain ⟨hb1, hb2⟩ := hblack d hdg hdk
            exact (hL2mem d).mpr ⟨hb1, hb2⟩
    · -- cycle propagated
      have hres : dfsVisit m (fuel + 1) n st = some (st2, some c) := by
        rw [dfsVisit_succ, ← hst1def, hE]
      refine ⟨?_, ?_, ?_⟩
      · intro _
        rw [hres]
        simp
      · intro st' c' h
        rw [hres] at h
        simp only [Option.some_inj, Prod.mk.injEq,
          Option.some.injEq] at h
        obtain ⟨-, hc⟩ := h
        exact hc ▸ hdeps.2.1 st2 c hE
      · intro st' h
        rw [hres] at h
        simp at h

theorem dfsVisit_spec {m : NodeMap} (hkeys : (keysOf m).Nodup) :
    ∀ fuel, DfsVisitSpec m fuel := by
  intro fuel
  induction fuel with
  | zero => exact dfsVisit_spec_zero m
  | succ fuel ih =>
      exact dfsVisit_spec_succ hkeys (dfsDeps_spec_of_visit ih)

theorem unvisited_le_length (m : NodeMap) (st : DfsState) :
    unvisitedCount m st ≤ m.length := by
  unfold unvisitedCount
  have h1 := List.length_filter_le
    (fun k => decide (k ∉ st.visited)) (keysOf m)
  have h2 := keysOf_length m
  omega

theorem stInv_init (m : NodeMap) : StInv m ⟨[], [], []⟩ := by
  refine ⟨?_, ?_, ?_, ?_, ?_, ⟨[], ?_, ?_, ?_⟩⟩
  · intro x
    simp
  · exact List.nodup_nil
  · intro x hx
    simp at hx
  · exact List.chain'_nil
  · intro x hx
    simp at hx
  · exact List.nodup_nil
  · intro x
    simp
  · intro pre n post h d _
    have hlen := congrArg List.length h
    simp at hlen
    omega

theorem detectCycleLoop_spec {m : NodeMap} (hkeys : (keysOf m).Nodup) :
    ∀ (ks : List String) (st : DfsState), StInv m st → st.path = [] →
      (∀ k ∈ ks, k ∈ keysOf m) →
      (∀ c, detectCycleLoop m ks st = some c → ValidCycle m c) ∧
      (detectCycleLoop m ks st = none →
        ∃ st', StInv m st' ∧ st'.path = [] ∧
          st.visited ⊆ st'.visited ∧ ∀ k ∈ ks, k ∈ st'.visited) := by
  intro ks
  induction ks with
  | nil =>
      intro st hst hp _
      constructor
      · intro c h
        simp [detectCycleLoop] at h
      · intro _
        exact ⟨st, hst, hp, fun _ h => h, by simp⟩
  | cons k rest ih =>
      intro st hst hp hks
      have hk : k ∈ keysOf m := hks k (by simp)
      by_cases hkv : k ∈ st.visited
      · have hcomp : detectCycleLoop m (k :: rest) st =
            detectCycleLoop m rest st := by
          simp only [detectCycleLoop]
          rw [if_neg (not_not_intro hkv)]
        obtain ⟨ih1, ih2⟩ := ih st hst hp
          (fun x hx => hks x (by simp [hx]))
        constructor
        · intro c h
          rw [hcomp] at h
          exact ih1 c h
        · intro h
          rw [hcomp] at h
          obtain ⟨st', h1, h2, h3, h4⟩ := ih2 h
          refine ⟨st', h1, h2, h3, ?_⟩
          intro x hx
          rcases List.mem_cons.mp hx with he | hxr
          · rw [he]
            exact h3 hkv
          · exact h4 x hxr
      · have hlink : ∀ p, st.path.getLast? = some p → DepOn m p k := by
          intro p hpl
          rw [hp] at hpl
          simp at hpl
        obtain ⟨hv1, hv2, hv3⟩ :=
          dfsVisit_spec hkeys (m.length + 1) k st hst hk hkv hlink
        have hfuel : unvisitedCount m st ≤ m.length + 1 := by
          have := unvisited_le_length m st
          omega
        rcases hV : dfsVisit m (m.length + 1) k st with _ | ⟨st2, copt⟩
        · exact absurd hV (hv1 hfuel)
        · rcases copt with _ | c
          · obtain ⟨hp2, hr2, hsub2, hkin2, hst2⟩ := hv3 st2 hV
            have hcomp : detectCycleLoop m (k :: rest) st =
                detectCycleLoop m rest st2 := by
              simp only [detectCycleLoop]
              rw [if_pos hkv, hV]
            obtain ⟨ih1, ih2⟩ := ih st2 hst2 (by rw [hp2, hp])
              (fun x hx => hks x (by simp [hx]))
            constructor
            · intro c h
              rw [hcomp] at h
              exact ih1 c h
            · intro h
              rw [hcomp] at h
              obtain ⟨st', h1, h2, h3, h4⟩ := ih2 h
              refine ⟨st', h1, h2, fun x hx => h3 (hsub2 hx), ?_⟩
              intro x hx
              rcases List.mem_cons.mp hx with he | hxr
              · rw [he]
                exact h3 hkin2
              · exact h4 x hxr
          · have hcomp : detectCycleLoop m (k :: rest) st = some c := by
              simp only [detectCycleLoop]
              rw [if_pos hkv, hV]
            constructor
            · intro c' h
              rw [hcomp] at h
              have hcc : c = c' := by simpa using h
              exact hcc ▸ hv2 st2 c hV
            · intro h
              rw [hcomp] at h
              simp at h

theorem detectCycle_valid {m : NodeMap} (hkeys : (keysOf m).Nodup)
    (hcyc : ¬ Acyclic m) : ValidCycle m (detectCycle m) := by
  have hspec := detectCycleLoop_spec hkeys (keysOf m) ⟨[], [], []⟩
    (stInv_init m) rfl (fun _ hk => hk)
  rcases hE : detectCycleLoop m (keysOf m) ⟨[], [], []⟩ with _ | c
  · obtain ⟨st', hst', hp', _, hall⟩ := hspec.2 hE
    obtain ⟨w1, _, _, _, w5, ⟨Lb, hLnd, hLmem, hLtopo⟩⟩ := hst'
    have hLkeys : ∀ x, x ∈ Lb ↔ x ∈ keysOf m := by
      intro x
      rw [hLmem x]
      constructor
      · rintro ⟨hv, -⟩
        exact w5 x hv
      · intro hxk
        refine ⟨hall x hxk, ?_⟩
        intro hr
        have hxp := (w1 x).mp hr
        rw [hp'] at hxp
        simp at hxp
    have hsub1 : Lb ⊆ keysOf m := fun x hx => (hLkeys x).mp hx
    have hsub2 : keysOf m ⊆ Lb := fun x hx => (hLkeys x).mpr hx
    have hperm : Lb.Perm (keysOf m) :=
      (List.subperm_of_subset hLnd hsub1).antisymm
        (List.subperm_of_subset hkeys hsub2)
    exact absurd (acyclic_of_topo hLnd hperm hLtopo) hcyc
  · have hdc : detectCycle m = c := by
      unfold detectCycle
      rw [hE]
    rw [hdc]
    exact hspec.1 c hE

/-- **C2** (cycle completeness): for every dependency map whose
in-set dependency relation has a cycle (some node transitively depends on
itself), graph construction fails with a `CyclicDependencyError` carrying a
cycle witness of length at least 2 whose nodes form a closed walk: the
first node equals the last and each consecutive pair is a dependency
edge. -/
theorem claim2_cycle_completeness {m : NodeMap}
    (hkeys : (keysOf m).Nodup) {x : String}
    (hcyc : Relation.TransGen (DepOn m) x x) :
    ∃ c, buildGraphCore m = .error c ∧ 2 ≤ c.length ∧
      c.head? = c.getLast? ∧ List.Chain' (DepOn m) c := by
  have hnacyc : ¬ Acyclic m := fun h => h x hcyc
  have hsort : topologicalSort m = .error (detectCycle m) := by
    by_cases hc : (kahnResult m).1.length = m.length
    · have hok : topologicalSort m = .ok (kahnResult m).1 := by
        unfold topologicalSort
        rw [if_pos hc]
      exact absurd (acyclic_of_sort_ok hkeys hok) hnacyc
    · unfold topologicalSort
      rw [if_neg hc]
  have hbuild : buildGraphCore m = .error (detectCycle m) := by
    unfold buildGraphCore
    rw [hsort]
    rfl
  obtain ⟨h1, h2, h3⟩ := detectCycle_valid hkeys hnacyc
  exact ⟨detectCycle m, hbuild, h1, h2, h3⟩

/-- Witness for C2 at the two-node cycle `a → b → a`. -/
theorem claim2_cycle_completeness_witness :
    ∃ c, buildGraphCore [("a", ["b"]), ("b", ["a"])] = .error c ∧
      2 ≤ c.length ∧ c.head? = c.getLast? ∧
      List.Chain' (DepOn [("a", ["b"]), ("b", ["a"])]) c :=
  claim2_cycle_completeness (by decide)
    (Relation.TransGen.head
      (show DepOn [("a", ["b"]), ("b", ["a"])] "a" "b" by decide)
      (Relation.TransGen.single
        (show DepOn [("a", ["b"]), ("b", ["a"])] "b" "a" by decide)))

end Cockpit
